import Mathlib

/-!
Verification of the Emergent Firms Model core
(src/code/EmergentFirmsModel.py) against its natural-language
specification.

The embedding uses exact rational arithmetic for the float arithmetic of
the source.  Two pieces of the source are external library calls and enter
the embedding as explicit function parameters:

* the bounded scalar optimizer scipy.optimize.minimize_scalar used by
  optimize_e enters as a parameter Opt of type OptFun; theorems that need
  its contract (result inside the search interval [0, 1], nonnegative
  attained utility) take that contract as a hypothesis;
* the real power E ** beta (beta is a float drawn from [1, 1.5)) used by
  distribute_output and singleton_utility enters as a parameter
  powB : Q -> Q -> Q, with nonnegativity on nonnegative arguments as a
  hypothesis where a proof needs it.

Agents are a total map from ids to an Agent record carrying the mutable
and immutable fields of the source dictionaries (the serialization-only
fields id, links and component are omitted; the 0/1 integer flags of the
source are embedded as Bool, 1 as true).  The networkx graphs are embedded
as edge lists with undirected edge membership; node_connected_component is
a breadth-first closure with enough fuel to reach its fixed point.
-/

namespace EFM

/-- Per-agent state: the agent dictionary of create_agents, minus the
serialization-only fields id, links and component.  Flags are the 0/1
integers of the source read as booleans. -/
structure Agent where
  omega : ℚ
  theta : ℚ
  a : ℚ
  b : ℚ
  beta : ℚ
  rate : ℚ
  U_self : ℚ
  e_self : ℚ
  e_star : ℚ
  firm : ℕ
  wage : ℚ
  savings : ℚ
  loan : ℚ
  borrow : Bool
  startup : Bool
  move : Bool
  thwart : Bool
  go : Bool
  deriving DecidableEq, Repr

/-- The agents dictionary of the source, as a total map on ids. -/
abbrev AgentMap := ℕ → Agent

/-- Pointwise update of the agents map, the in-place mutation
agents[i][...] = ... of the source. -/
def updA (st : AgentMap) (i : ℕ) (x : Agent) : AgentMap :=
  fun j => if j = i then x else st j

@[simp] theorem updA_same (st : AgentMap) (i : ℕ) (x : Agent) :
    updA st i x i = x := by
  simp [updA]

@[simp] theorem updA_other (st : AgentMap) (i : ℕ) (x : Agent) (j : ℕ)
    (h : j ≠ i) : updA st i x j = st j := by
  simp [updA, h]

/-- An agent with every numeric field 0 and every flag false; fixture base
for concrete evaluations. -/
def baseAgent : Agent :=
  { omega := 0, theta := 0, a := 0, b := 0, beta := 0, rate := 0,
    U_self := 0, e_self := 0, e_star := 0, firm := 0, wage := 0,
    savings := 0, loan := 0, borrow := false, startup := false,
    move := false, thwart := false, go := false }

/-- Type of the bounded scalar optimizer: arguments a b beta w theta E_o n
as in optimize_e, result (e_star, utility). -/
abbrev OptFun := ℚ → ℚ → ℚ → ℚ → ℚ → ℚ → ℕ → ℚ × ℚ

/-!
Undirected graphs as edge lists, embedding the networkx Graph operations
the source uses: has_edge, add_edge, remove_edge, neighbors and
node_connected_component.
-/

/-- An undirected graph on natural-number nodes, as a list of edges. -/
structure Graph where
  edges : List (ℕ × ℕ)
  deriving DecidableEq, Repr

namespace Graph

/-- Undirected adjacency as a proposition. -/
def Adj (F : Graph) (u v : ℕ) : Prop :=
  (u, v) ∈ F.edges ∨ (v, u) ∈ F.edges

instance (F : Graph) (u v : ℕ) : Decidable (F.Adj u v) := by
  unfold Adj; infer_instance

theorem Adj.symm {F : Graph} {u v : ℕ} (h : F.Adj u v) : F.Adj v u :=
  h.elim Or.inr Or.inl

/-- The networkx has_edge test. -/
def hasEdge (F : Graph) (u v : ℕ) : Bool :=
  decide (F.Adj u v)

theorem hasEdge_iff {F : Graph} {u v : ℕ} :
    F.hasEdge u v = true ↔ F.Adj u v := by
  simp [hasEdge]

/-- The networkx add_edge: a no-op when the edge is already present. -/
def addEdge (F : Graph) (u v : ℕ) : Graph :=
  if F.Adj u v then F else ⟨(u, v) :: F.edges⟩

/-- The networkx remove_edge, as total removal of the matching pairs; the
claims that depend on the removed edge existing state that existence
separately. -/
def removeEdge (F : Graph) (u v : ℕ) : Graph :=
  ⟨F.edges.filter (fun e => !((e.1 == u && e.2 == v) || (e.1 == v && e.2 == u)))⟩

/-- The networkx neighbors view. -/
def nbrs (F : Graph) (u : ℕ) : List ℕ :=
  F.edges.filterMap
    (fun e => if e.1 = u then some e.2 else if e.2 = u then some e.1 else none)

theorem mem_nbrs {F : Graph} {u v : ℕ} : v ∈ F.nbrs u ↔ F.Adj u v := by
  constructor
  · intro h
    rcases List.mem_filterMap.mp h with ⟨e, he, hev⟩
    by_cases h1 : e.1 = u
    · simp only [h1, if_pos rfl] at hev
      left
      have : e = (u, v) := by
        cases e; cases hev; simp_all
      exact this ▸ he
    · simp only [if_neg h1] at hev
      by_cases h2 : e.2 = u
      · simp only [h2, if_pos rfl] at hev
        right
        have : e = (v, u) := by
          cases e; cases hev; simp_all
        exact this ▸ he
      · simp [h2] at hev
  · intro h
    rcases h with h | h
    · exact List.mem_filterMap.mpr ⟨(u, v), h, by simp⟩
    · by_cases huv : v = u
      · subst huv
        exact List.mem_filterMap.mpr ⟨(v, v), h, by simp⟩
      · exact List.mem_filterMap.mpr ⟨(v, u), h, by simp [huv]⟩

theorem adj_addEdge {F : Graph} {u v x y : ℕ} :
    (F.addEdge u v).Adj x y ↔
      F.Adj x y ∨ (x = u ∧ y = v) ∨ (x = v ∧ y = u) := by
  unfold addEdge
  by_cases h : F.Adj u v
  · rw [if_pos h]
    constructor
    · exact Or.inl
    · rintro (hxy | ⟨rfl, rfl⟩ | ⟨rfl, rfl⟩)
      · exact hxy
      · exact h
      · exact h.symm
  · rw [if_neg h]
    unfold Adj
    simp only [List.mem_cons, Prod.mk.injEq]
    constructor
    · rintro (h1 | h1) <;> rcases h1 with h2 | h2
      · exact Or.inr (Or.inl ⟨h2.1, h2.2⟩)
      · exact Or.inl (Or.inl h2)
      · exact Or.inr (Or.inr ⟨h2.2, h2.1⟩)
      · exact Or.inl (Or.inr h2)
    · rintro ((h2 | h2) | ⟨rfl, rfl⟩ | ⟨rfl, rfl⟩)
      · exact Or.inl (Or.inr h2)
      · exact Or.inr (Or.inr h2)
      · exact Or.inl (Or.inl ⟨rfl, rfl⟩)
      · exact Or.inr (Or.inl ⟨rfl, rfl⟩)

theorem adj_removeEdge {F : Graph} {u v x y : ℕ} :
    (F.removeEdge u v).Adj x y ↔
      F.Adj x y ∧ ¬((x = u ∧ y = v) ∨ (x = v ∧ y = u)) := by
  unfold removeEdge Adj
  simp only [List.mem_filter, beq_iff_eq, Bool.not_eq_eq_eq_not, Bool.not_true,
    Bool.or_eq_false_iff, Bool.and_eq_false_imp, decide_eq_true_eq,
    decide_eq_false_iff_not]
  constructor
  · rintro (⟨h1, h2⟩ | ⟨h1, h2⟩)
    · refine ⟨Or.inl h1, ?_⟩
      rintro (⟨rfl, rfl⟩ | ⟨rfl, rfl⟩) <;> simp_all
    · refine ⟨Or.inr h1, ?_⟩
      rintro (⟨rfl, rfl⟩ | ⟨rfl, rfl⟩) <;> simp_all
  · rintro ⟨h1 | h1, h2⟩
    · refine Or.inl ⟨h1, ?_⟩
      constructor
      · intro hx
        simp only [beq_eq_false_iff_ne]
        intro hy; exact h2 (Or.inl ⟨hx, hy⟩)
      · intro hx
        simp only [beq_eq_false_iff_ne]
        intro hy; exact h2 (Or.inr ⟨hx, hy⟩)
    · refine Or.inr ⟨h1, ?_⟩
      constructor
      · intro hy
        simp only [beq_eq_false_iff_ne]
        intro hx; exact h2 (Or.inr ⟨hx, hy⟩)
      · intro hy
        simp only [beq_eq_false_iff_ne]
        intro hx; exact h2 (Or.inl ⟨hx, hy⟩)

/-- Insert a node into an accumulator list unless already present. -/
def insertNew (s : List ℕ) (v : ℕ) : List ℕ :=
  if v ∈ s then s else s ++ [v]

/-- One breadth-first sweep: every member's neighbors are inserted. -/
def growFrom (F : Graph) (acc : List ℕ) : List ℕ :=
  acc.foldl (fun s u => (F.nbrs u).foldl insertNew s) acc

/-- Iterate growFrom until it adds nothing, with explicit fuel. -/
def compAux (F : Graph) : ℕ → List ℕ → List ℕ
  | 0, acc => acc
  | fuel + 1, acc =>
      if (F.growFrom acc).length = acc.length then acc
      else F.compAux fuel (F.growFrom acc)

/-- The networkx node_connected_component: the fuel suffices for the
breadth-first closure to reach its fixed point (proved below). -/
def componentOf (F : Graph) (u : ℕ) : List ℕ :=
  F.compAux (2 * F.edges.length + 2) [u]

/-- All edge endpoints, the universe the closure can draw nodes from. -/
def endpointsList (F : Graph) : List ℕ :=
  F.edges.map Prod.fst ++ F.edges.map Prod.snd

end Graph

theorem insertNew_subset (s : List ℕ) (v : ℕ) : s ⊆ Graph.insertNew s v := by
  unfold Graph.insertNew
  split
  · exact fun x hx => hx
  · exact List.subset_append_left s [v]

theorem mem_insertNew_iff {s : List ℕ} {v x : ℕ} :
    x ∈ Graph.insertNew s v ↔ x ∈ s ∨ x = v := by
  unfold Graph.insertNew
  split
  · rename_i h
    constructor
    · exact Or.inl
    · rintro (hx | rfl) <;> [exact hx; exact h]
  · simp [List.mem_append]

theorem insertNew_nodup {s : List ℕ} (h : s.Nodup) (v : ℕ) :
    (Graph.insertNew s v).Nodup := by
  unfold Graph.insertNew
  split
  · exact h
  · rename_i hv
    simpa [List.nodup_append, hv] using h

theorem insertNew_append (s : List ℕ) (v : ℕ) :
    ∃ t, Graph.insertNew s v = s ++ t := by
  unfold Graph.insertNew
  split
  · exact ⟨[], by simp⟩
  · exact ⟨[v], rfl⟩

theorem foldl_insertNew_append (l : List ℕ) :
    ∀ s : List ℕ, ∃ t, l.foldl Graph.insertNew s = s ++ t := by
  induction l with
  | nil => exact fun s => ⟨[], by simp⟩
  | cons b l ih =>
      intro s
      rcases insertNew_append s b with ⟨t1, h1⟩
      rcases ih (Graph.insertNew s b) with ⟨t2, h2⟩
      refine ⟨t1 ++ t2, ?_⟩
      rw [List.foldl_cons, h2, h1, List.append_assoc]

theorem subset_foldl_insertNew (l s : List ℕ) :
    s ⊆ l.foldl Graph.insertNew s := by
  rcases foldl_insertNew_append l s with ⟨t, ht⟩
  rw [ht]
  exact List.subset_append_left s t

theorem mem_foldl_insertNew {l : List ℕ} {v : ℕ} (hv : v ∈ l) (s : List ℕ) :
    v ∈ l.foldl Graph.insertNew s := by
  induction l generalizing s with
  | nil => cases hv
  | cons b l ih =>
      rcases List.mem_cons.mp hv with rfl | hv2
      · exact subset_foldl_insertNew l _
          (mem_insertNew_iff.mpr (Or.inr rfl))
      · exact ih hv2 _

theorem mem_foldl_insertNew_iff {l : List ℕ} {x : ℕ} :
    ∀ {s : List ℕ}, x ∈ l.foldl Graph.insertNew s ↔ x ∈ s ∨ x ∈ l := by
  induction l with
  | nil => simp
  | cons b l ih =>
      intro s
      rw [List.foldl_cons, ih, mem_insertNew_iff]
      constructor
      · rintro ((hs | rfl) | hl)
        · exact Or.inl hs
        · exact Or.inr (List.mem_cons_self _ _)
        · exact Or.inr (List.mem_cons_of_mem _ hl)
      · rintro (hs | hbl)
        · exact Or.inl (Or.inl hs)
        · rcases List.mem_cons.mp hbl with rfl | hl
          · exact Or.inl (Or.inr rfl)
          · exact Or.inr hl

theorem foldl_insertNew_nodup {l : List ℕ} :
    ∀ {s : List ℕ}, s.Nodup → (l.foldl Graph.insertNew s).Nodup := by
  induction l with
  | nil => exact fun h => h
  | cons b l ih => exact fun h => ih (insertNew_nodup h b)

theorem sweep_append (F : Graph) (l : List ℕ) :
    ∀ s : List ℕ,
      ∃ t, l.foldl (fun s u => (F.nbrs u).foldl Graph.insertNew s) s = s ++ t := by
  induction l with
  | nil => exact fun s => ⟨[], by simp⟩
  | cons b l ih =>
      intro s
      rcases foldl_insertNew_append (F.nbrs b) s with ⟨t1, h1⟩
      rcases ih ((F.nbrs b).foldl Graph.insertNew s) with ⟨t2, h2⟩
      refine ⟨t1 ++ t2, ?_⟩
      rw [List.foldl_cons, h2, h1, List.append_assoc]

theorem subset_sweep (F : Graph) (l s : List ℕ) :
    s ⊆ l.foldl (fun s u => (F.nbrs u).foldl Graph.insertNew s) s := by
  rcases sweep_append F l s with ⟨t, ht⟩
  rw [ht]
  exact List.subset_append_left s t

theorem nbrs_subset_sweep (F : Graph) {l : List ℕ} {u : ℕ} (hu : u ∈ l) :
    ∀ s : List ℕ,
      F.nbrs u ⊆ l.foldl (fun s u => (F.nbrs u).foldl Graph.insertNew s) s := by
  induction l with
  | nil => cases hu
  | cons b l ih =>
      intro s
      rcases List.mem_cons.mp hu with rfl | hu2
      · intro v hv
        rw [List.foldl_cons]
        exact subset_sweep F l _ (mem_foldl_insertNew hv s)
      · exact ih hu2 _

theorem mem_sweep_iff (F : Graph) {l : List ℕ} {x : ℕ} :
    ∀ {s : List ℕ},
      x ∈ l.foldl (fun s u => (F.nbrs u).foldl Graph.insertNew s) s ↔
        x ∈ s ∨ ∃ u ∈ l, x ∈ F.nbrs u := by
  induction l with
  | nil => simp
  | cons b l ih =>
      intro s
      rw [List.foldl_cons, ih, mem_foldl_insertNew_iff]
      constructor
      · rintro ((hs | hb) | ⟨u, hu, hx⟩)
        · exact Or.inl hs
        · exact Or.inr ⟨b, List.mem_cons_self _ _, hb⟩
        · exact Or.inr ⟨u, List.mem_cons_of_mem _ hu, hx⟩
      · rintro (hs | ⟨u, hu, hx⟩)
        · exact Or.inl (Or.inl hs)
        · rcases List.mem_cons.mp hu with rfl | hu2
          · exact Or.inl (Or.inr hx)
          · exact Or.inr ⟨u, hu2, hx⟩

theorem sweep_nodup (F : Graph) {l : List ℕ} :
    ∀ {s : List ℕ}, s.Nodup →
      (l.foldl (fun s u => (F.nbrs u).foldl Graph.insertNew s) s).Nodup := by
  induction l with
  | nil => exact fun h => h
  | cons b l ih => exact fun h => ih (foldl_insertNew_nodup h)

theorem subset_growFrom (F : Graph) (acc : List ℕ) : acc ⊆ F.growFrom acc :=
  subset_sweep F acc acc

theorem growFrom_append (F : Graph) (acc : List ℕ) :
    ∃ t, F.growFrom acc = acc ++ t :=
  sweep_append F acc acc

theorem mem_growFrom_iff {F : Graph} {acc : List ℕ} {x : ℕ} :
    x ∈ F.growFrom acc ↔ x ∈ acc ∨ ∃ u ∈ acc, x ∈ F.nbrs u :=
  mem_sweep_iff F

theorem growFrom_nodup {F : Graph} {acc : List ℕ} (h : acc.Nodup) :
    (F.growFrom acc).Nodup :=
  sweep_nodup F h

theorem growFrom_eq_of_length {F : Graph} {acc : List ℕ}
    (h : (F.growFrom acc).length = acc.length) : F.growFrom acc = acc := by
  rcases growFrom_append F acc with ⟨t, ht⟩
  rw [ht] at h ⊢
  have : t = [] := by
    rw [List.length_append] at h
    exact List.length_eq_zero.mp (by omega)
  simp [this]

/-- A node set is closed when one breadth-first sweep adds nothing. -/
def Graph.SweepClosed (F : Graph) (acc : List ℕ) : Prop :=
  F.growFrom acc = acc

theorem sweepClosed_nbrs {F : Graph} {acc : List ℕ} (h : F.SweepClosed acc)
    {u : ℕ} (hu : u ∈ acc) : F.nbrs u ⊆ acc := by
  have := nbrs_subset_sweep F hu acc
  unfold Graph.SweepClosed at h
  unfold Graph.growFrom at h
  rw [h] at this
  exact this

theorem subset_compAux (F : Graph) :
    ∀ (fuel : ℕ) (acc : List ℕ), acc ⊆ F.compAux fuel acc := by
  intro fuel
  induction fuel with
  | zero =>
      intro acc
      rw [Graph.compAux]
      exact fun x hx => hx
  | succ n ih =>
      intro acc
      rw [Graph.compAux]
      split
      · exact fun x hx => hx
      · exact fun x hx => ih _ (subset_growFrom F acc hx)

theorem compAux_sound (F : Graph) (P : ℕ → Prop)
    (hP : ∀ u, P u → ∀ v ∈ F.nbrs u, P v) :
    ∀ (fuel : ℕ) (acc : List ℕ), (∀ x ∈ acc, P x) →
      ∀ x ∈ F.compAux fuel acc, P x := by
  intro fuel
  induction fuel with
  | zero => intro acc hacc; rw [Graph.compAux]; exact hacc
  | succ n ih =>
      intro acc hacc
      rw [Graph.compAux]
      split
      · exact hacc
      · refine ih _ ?_
        intro x hx
        rcases mem_growFrom_iff.mp hx with hx2 | ⟨u, hu, hx2⟩
        · exact hacc x hx2
        · exact hP u (hacc u hu) x hx2

theorem compAux_nodup (F : Graph) :
    ∀ (fuel : ℕ) {acc : List ℕ}, acc.Nodup → (F.compAux fuel acc).Nodup := by
  intro fuel
  induction fuel with
  | zero => intro acc h; rw [Graph.compAux]; exact h
  | succ n ih =>
      intro acc h
      rw [Graph.compAux]
      split
      · exact h
      · exact ih (growFrom_nodup h)

theorem compAux_sweepClosed (F : Graph) (pool : List ℕ)
    (hnb : ∀ u v, v ∈ F.nbrs u → v ∈ pool) :
    ∀ (fuel : ℕ) (acc : List ℕ), acc.Nodup → acc ⊆ pool →
      pool.length + 1 ≤ fuel + acc.length →
      F.SweepClosed (F.compAux fuel acc) := by
  intro fuel
  induction fuel with
  | zero =>
      intro acc hnd hsub hlen
      have : acc.length ≤ pool.length := (hnd.subperm hsub).length_le
      omega
  | succ n ih =>
      intro acc hnd hsub hlen
      rw [Graph.compAux]
      split
      · rename_i hstop
        exact growFrom_eq_of_length hstop
      · rename_i hgo
        refine ih (F.growFrom acc) (growFrom_nodup hnd) ?_ ?_
        · intro x hx
          rcases mem_growFrom_iff.mp hx with hx2 | ⟨u, _, hx2⟩
          · exact hsub hx2
          · exact hnb u x hx2
        · rcases growFrom_append F acc with ⟨t, ht⟩
          have hlt : acc.length < (F.growFrom acc).length := by
            rw [ht, List.length_append]
            rcases t with _ | ⟨c, t⟩
            · exact absurd (by rw [ht]; simp) hgo
            · simp
          omega

theorem nbrs_subset_endpointsList (F : Graph) (u : ℕ) :
    F.nbrs u ⊆ F.endpointsList := by
  intro v hv
  rcases List.mem_filterMap.mp hv with ⟨e, he, hev⟩
  unfold Graph.endpointsList
  rw [List.mem_append]
  by_cases h1 : e.1 = u
  · rw [if_pos h1, Option.some.injEq] at hev
    exact Or.inr (List.mem_map.mpr ⟨e, he, hev⟩)
  · rw [if_neg h1] at hev
    by_cases h2 : e.2 = u
    · rw [if_pos h2, Option.some.injEq] at hev
      exact Or.inl (List.mem_map.mpr ⟨e, he, hev⟩)
    · rw [if_neg h2] at hev
      cases hev

theorem componentOf_sweepClosed (F : Graph) (u : ℕ) :
    F.SweepClosed (F.componentOf u) := by
  refine compAux_sweepClosed F (u :: F.endpointsList) ?_ _ [u] (by simp)
    (by simp) ?_
  · intro a v hv
    exact List.mem_cons_of_mem u (nbrs_subset_endpointsList F a hv)
  · unfold Graph.endpointsList
    simp only [List.length_cons, List.length_append, List.length_map,
      List.length_singleton]
    omega

theorem mem_componentOf_self (F : Graph) (u : ℕ) : u ∈ F.componentOf u :=
  subset_compAux F _ [u] (List.mem_singleton.mpr rfl)

theorem componentOf_nodup (F : Graph) (u : ℕ) : (F.componentOf u).Nodup :=
  compAux_nodup F _ (List.nodup_singleton u)

theorem componentOf_sound (F : Graph) (P : ℕ → Prop) {u : ℕ} (hu : P u)
    (hP : ∀ a, P a → ∀ v ∈ F.nbrs a, P v) :
    ∀ x ∈ F.componentOf u, P x :=
  compAux_sound F P hP _ [u] (by intro x hx; rw [List.mem_singleton.mp hx]; exact hu)

theorem adj_mem_componentOf {F : Graph} {u x v : ℕ}
    (hx : x ∈ F.componentOf u) (hadj : F.Adj x v) : v ∈ F.componentOf u :=
  sweepClosed_nbrs (componentOf_sweepClosed F u) hx (Graph.mem_nbrs.mpr hadj)

/-!
LendingModule: can_repay_loan (source lines 400-401).

The source body is the single expression

  agent['savings'] + expected_wage * loan_repayment_lookahead
    >= cost * (1 + lendingrate) ** loan_repayment_lookahead
-/

/-- Affordability check of the source: savings plus the full lookahead of
expected wages must cover the principal compounded over the whole
lookahead. -/
def can_repay_loan (agent : Agent) (expected_wage cost lendingrate : ℚ)
    (loan_repayment_lookahead : ℕ) : Bool :=
  decide (cost * (1 + lendingrate) ^ loan_repayment_lookahead ≤
    agent.savings + expected_wage * (loan_repayment_lookahead : ℚ))

/-- Modelled from the spec: the period-by-period repayment simulation of
spec section 4.3, which is absent from the source.  Starting from the
principal, each period multiplies by (1 + rate) and subtracts
savings_rate times the conservative wage; true on the first period the
principal reaches 0, false if it is still positive after all periods. -/
def repay_sim_spec (srate cw lendingrate : ℚ) : ℕ → ℚ → Bool
  | 0, _ => false
  | k + 1, p =>
      let p2 := p * (1 + lendingrate) - srate * cw
      if p2 ≤ 0 then true else repay_sim_spec srate cw lendingrate k p2

/-- Modelled from the spec: the whole affordability check of spec section
4.3, including the risk haircut parameter risk_pct that the source
function does not take. -/
def can_repay_loan_spec (agent : Agent) (expected_wage principal lendingrate : ℚ)
    (lookahead : ℕ) (risk_pct : ℚ) : Bool :=
  if principal ≤ agent.savings then true
  else
    repay_sim_spec agent.rate (expected_wage * (1 - risk_pct / 100))
      lendingrate lookahead principal

/-- One joint compounding step, iterated: the principal compounds at the
lending rate while the wage is banked without interest. -/
def loan_balance_iter (w r : ℚ) : ℕ → ℚ × ℚ → ℚ × ℚ
  | 0, pb => pb
  | k + 1, pb => loan_balance_iter w r k (pb.1 * (1 + r), pb.2 + w)

theorem loan_balance_iter_eq (w r : ℚ) :
    ∀ (k : ℕ) (p s : ℚ),
      loan_balance_iter w r k (p, s) = (p * (1 + r) ^ k, s + w * (k : ℚ)) := by
  intro k
  induction k with
  | zero => intro p s; simp [loan_balance_iter]
  | succ n ih =>
      intro p s
      rw [loan_balance_iter, ih]
      refine Prod.ext ?_ ?_ <;> push_cast <;> ring

/-- Fixture for the C2 counterexample: an agent with no savings and the
default savings rate 0.03. -/
def c2Agent : Agent := { baseAgent with savings := 0, rate := 3 / 100 }

/-- C2: the claim says that for principal_needed > savings the result of
can_repay_loan equals the period-by-period repayment simulation of spec
section 4.3.  It does not: at expected_wage = 1, principal = 1,
lending_rate = 0, lookahead = 12, risk_pct = 0, with savings 0 and
savings rate 0.03 the source returns true while the simulation leaves a
positive principal after all 12 periods and returns false. -/
theorem c2_counterexample :
    (0 : ℚ) < 1 ∧ c2Agent.savings < 1 ∧
      can_repay_loan c2Agent 1 1 0 12 = true ∧
      can_repay_loan_spec c2Agent 1 1 0 12 0 = false := by
  refine ⟨by norm_num, by norm_num [c2Agent, baseAgent], ?_, ?_⟩
  · norm_num [can_repay_loan, c2Agent, baseAgent]
  · norm_num [can_repay_loan_spec, repay_sim_spec, c2Agent, baseAgent]

/-- C2 (amended): can_repay_loan performs no per-period amortization and
takes no risk_pct; it equals the outcome of compounding the principal
over the whole lookahead while banking the expected wage without
interest, and returns true iff the banked savings then cover the
compounded principal. -/
theorem c2_can_repay_loan_closed_form
    (agent : Agent) (expected_wage cost lendingrate : ℚ) (lookahead : ℕ) :
    can_repay_loan agent expected_wage cost lendingrate lookahead =
      decide ((loan_balance_iter expected_wage lendingrate lookahead
          (cost, agent.savings)).1 ≤
        (loan_balance_iter expected_wage lendingrate lookahead
          (cost, agent.savings)).2) := by
  rw [can_repay_loan, loan_balance_iter_eq]

/-- Fixture for the C3 counterexample: savings 10, as in the example the
claim itself gives. -/
def c3Agent : Agent := { baseAgent with savings := 10 }

/-- C3: the claim says principal_needed ≤ savings forces a true result
regardless of the other arguments.  It does not: with savings 10 and
principal 5 (the claim's own example), expected_wage 0, lending_rate 1
and lookahead 2 the source compares 10 against 5 * 2 ^ 2 = 20 and
returns false. -/
theorem c3_counterexample :
    (5 : ℚ) ≤ c3Agent.savings ∧ can_repay_loan c3Agent 0 5 1 2 = false := by
  constructor
  · norm_num [c3Agent, baseAgent]
  · norm_num [can_repay_loan, c3Agent, baseAgent]

/-- C3 (amended): principal_needed ≤ savings alone does not force a true
result; it does as soon as the lookahead of expected wages also covers
the interest accrued on the principal over the lookahead. -/
theorem c3_le_savings_repay
    (agent : Agent) (expected_wage cost lendingrate : ℚ) (lookahead : ℕ)
    (hc : cost ≤ agent.savings)
    (hw : cost * ((1 + lendingrate) ^ lookahead - 1) ≤
      expected_wage * (lookahead : ℚ)) :
    can_repay_loan agent expected_wage cost lendingrate lookahead = true := by
  rw [can_repay_loan, decide_eq_true_eq]
  have h : cost * (1 + lendingrate) ^ lookahead =
      cost + cost * ((1 + lendingrate) ^ lookahead - 1) := by ring
  rw [h]
  exact add_le_add hc hw

/-- Witness for C3 (amended): savings 10, principal 5, zero wage, zero
lending rate, lookahead 2. -/
theorem c3_le_savings_repay_witness :
    can_repay_loan c3Agent 0 5 0 2 = true :=
  c3_le_savings_repay c3Agent 0 5 0 2
    (by norm_num [c3Agent, baseAgent]) (by norm_num)

/-!
The model functions of the source: decide / other_utility /
current_utility (source lines 135-343), change_ownership (407-419),
distribute_output (421-435), pay_loans (437-447), agent creation
(104-130, 657-660) and the per-agent block of the tick loop (672-688).
-/

/-- The model-wide parameters that action threads into decide. -/
structure Params where
  move_rate : ℚ
  startup_rate : ℚ
  lending : Bool
  lendingrate : ℚ
  debt_awareness : Bool
  loan_repayment_lookahead : ℕ
  deriving Repr

/-- Loop body of other_utility when candidate j is not skipped: component
of j minus j, its size n and aggregate effort E_o, one optimize_e call
with the trial owner's production constants, then keep the strictly
better utility (first-found wins ties). -/
def other_consider (Opt : OptFun) (ag : AgentMap) (F : Graph) (i : ℕ)
    (best : ℚ × ℚ × ℕ) (j : ℕ) : ℚ × ℚ × ℕ :=
  let trial := (ag j).firm
  let D := (F.componentOf j).erase j
  let n := D.length
  let E_o := (D.map fun k => (ag k).e_star).sum
  let r := Opt (ag trial).a (ag trial).b (ag trial).beta (ag i).omega
    (ag i).theta E_o (n + 1)
  if best.2.1 < r.2 then (r.1, r.2, trial) else best

/-- The debt-awareness gate of other_utility: candidate j is skipped when
the flag is on and the repayment check against the trial firm's wage and
the agent's current loan fails. -/
def other_skip (P : Params) (ag : AgentMap) (i j : ℕ) : Bool :=
  P.debt_awareness &&
    !(can_repay_loan (ag i) ((ag (ag j).firm).wage) ((ag i).loan)
        P.lendingrate P.loan_repayment_lookahead)

/-- Candidate list of other_utility: social neighbors of i that are not
current co-members. -/
def other_candidates (S : Graph) (i : ℕ) (A : List ℕ) : List ℕ :=
  (S.nbrs i).filter fun x => !(A.contains x)

/-- The other_utility scan of the source, returning
(e_star, U, firm) with the zero-initialized accumulator of the source. -/
def other_utility (Opt : OptFun) (P : Params) (ag : AgentMap) (F S : Graph)
    (i : ℕ) (A : List ℕ) : ℚ × ℚ × ℕ :=
  (other_candidates S i A).foldl
    (fun best j =>
      if other_skip P ag i j then best else other_consider Opt ag F i best j)
    (0, 0, 0)

/-- The current_utility call of the source: the deciding agent's own
constants with the co-members' aggregate effort. -/
def current_utility (Opt : OptFun) (ag : AgentMap) (i : ℕ) (A : List ℕ) :
    ℚ × ℚ :=
  Opt (ag i).a (ag i).b (ag i).beta (ag i).omega (ag i).theta
    ((A.map fun j => (ag j).e_star).sum) (A.length + 1)

/-- The decide function of the source (named decide_fn because decide is
taken in Lean).  Returns the realized effort, the chosen firm id, and the
agents map with the in-place mutations decide makes to agent i
(savings, loan and flags).  The source's log_entry bookkeeping is pure
logging and is not part of the embedding. -/
def decide_fn (Opt : OptFun) (P : Params) (ag : AgentMap) (F S : Graph)
    (i : ℕ) : ℚ × ℕ × AgentMap :=
  let firm := (ag i).firm
  let wage := (ag i).wage
  let savings := (ag i).savings
  let loan := (ag i).loan
  let U_single := (ag i).U_self
  let e_single := (ag i).e_self
  let A := (F.componentOf i).erase i
  let ou := other_utility Opt P ag F S i A
  let e_other := ou.1
  let U_other := ou.2.1
  let firm_other := ou.2.2
  if A.isEmpty then
    let cost := wage * P.move_rate
    if U_single < U_other then
      if cost ≤ savings then
        (e_other, firm_other,
          updA ag i { ag i with savings := savings - cost, move := true })
      else if P.lending ∧ loan = 0 then
        (e_other, firm_other,
          updA ag i
            { ag i with
              loan := cost - savings, savings := 0,
              move := true, borrow := true })
      else
        (e_single, firm, updA ag i { ag i with thwart := true })
    else
      (e_single, firm, ag)
  else
    let cu := current_utility Opt ag i A
    let e_current := cu.1
    let U_current := cu.2
    let M := max (max U_current U_other) U_single
    if M = U_single then
      let cost := P.startup_rate * wage
      if cost ≤ savings then
        (e_single, i,
          updA ag i { ag i with savings := savings - cost, startup := true })
      else if P.lending ∧ loan = 0 then
        (e_single, i,
          updA ag i
            { ag i with
              loan := cost - savings, savings := 0,
              startup := true, borrow := true })
      else
        (e_current, firm, updA ag i { ag i with thwart := true })
    else if M = U_other then
      let cost := P.move_rate * wage
      if cost ≤ savings then
        (e_other, firm_other,
          updA ag i { ag i with savings := savings - cost, move := true })
      else if P.lending ∧ loan = 0 then
        (e_other, firm_other,
          updA ag i
            { ag i with
              loan := cost - savings, savings := 0,
              move := true, borrow := true })
      else
        (e_current, firm, updA ag i { ag i with thwart := true })
    else
      (e_current, firm, ag)

/-- Loop body of change_ownership: rewire one remaining member j from the
departing owner i to the new owner. -/
def chstep (nown i : ℕ) (st : Graph × AgentMap) (j : ℕ) :
    Graph × AgentMap :=
  ((st.1.addEdge j nown).removeEdge j i,
    updA st.2 j { st.2 j with firm := nown })

/-- The change_ownership function of the source.  The uniform
random.sample draw of the new owner enters as the choice function pick;
theorems quantify over every pick that picks a member. -/
def change_ownership (F : Graph) (i : ℕ) (A : List ℕ) (ag : AgentMap)
    (pick : List ℕ → ℕ) : Graph × AgentMap :=
  ((A.erase i).erase (pick (A.erase i))).foldl
    (chstep (pick (A.erase i)) i)
    (F.removeEdge (pick (A.erase i)) i,
      updA ag (pick (A.erase i))
        { ag (pick (A.erase i)) with firm := pick (A.erase i) })

/-- Final rewiring of the departing agent i itself: set its firm_id, add
its edge to the new firm, and remove its edge to the old firm when
present (source lines 683-685). -/
def rewire_core (ag2 : AgentMap) (Fco : Graph) (i firm nf : ℕ) :
    AgentMap × Graph :=
  (updA ag2 i { ag2 i with firm := nf },
    if (Fco.addEdge i nf).hasEdge i firm then
      (Fco.addEdge i nf).removeEdge i firm
    else Fco.addEdge i nf)

/-- The graph-mutation block of the tick loop (source lines 680-685): on a
firm change, transfer ownership first when the departing agent owned a
larger firm, then rewire the agent itself. -/
def graph_rewire (pick : List ℕ → ℕ) (ag1 : AgentMap) (F : Graph)
    (i firm nf : ℕ) : AgentMap × Graph :=
  if nf ≠ firm then
    if firm = i ∧ 1 < (F.componentOf i).length then
      rewire_core (change_ownership F i (F.componentOf i) ag1 pick).2
        (change_ownership F i (F.componentOf i) ag1 pick).1 i firm nf
    else rewire_core ag1 F i firm nf
  else (ag1, F)

/-- The per-active-agent block of the tick loop (source lines 675-688):
set go, run decide, store the realized effort, then the graph mutation. -/
def agent_block (Opt : OptFun) (P : Params) (pick : List ℕ → ℕ) (S : Graph)
    (ag : AgentMap) (F : Graph) (i : ℕ) : AgentMap × Graph :=
  let ag0 := updA ag i { ag i with go := true }
  let r := decide_fn Opt P ag0 F S i
  graph_rewire pick (updA r.2.2 i { r.2.2 i with e_star := r.1 }) F i
    (ag0 i).firm r.2.1

/-- Components enumeration of nx.connected_components over the N nodes of
the firm graph, in order of first-seen node. -/
def componentsOf (F : Graph) (N : ℕ) : List (List ℕ) :=
  (List.range N).foldl
    (fun gs u => if gs.any fun g => g.contains u then gs
      else gs ++ [F.componentOf u])
    []

/-- The per-component share of distribute_output: total output from the
owner's constants (the float power enters as powB) divided by the
component size; the owner is read through the first listed member's firm
pointer as in the source. -/
def comp_share (powB : ℚ → ℚ → ℚ) (st : AgentMap) (g : List ℕ) : ℚ :=
  ((st ((st (g.headD 0)).firm)).a * (g.map fun j => (st j).e_star).sum +
      (st ((st (g.headD 0)).firm)).b *
        powB ((st ((st (g.headD 0)).firm)).beta)
          ((g.map fun j => (st j).e_star).sum)) / (g.length : ℚ)

/-- The distribute_output function of the source: per component, the
share is computed once from the state at the start of the component, then
every member's wage becomes the share and its savings accrue at its own
rate. -/
def distribute_output (powB : ℚ → ℚ → ℚ) (ag : AgentMap) (F : Graph)
    (N : ℕ) : AgentMap :=
  (componentsOf F N).foldl
    (fun st g =>
      g.foldl
        (fun st2 j =>
          updA st2 j
            { st2 j with
              wage := comp_share powB st g,
              savings := (st2 j).savings + comp_share powB st g * (st2 j).rate })
        st)
    ag

/-- The pay_loans function of the source: compound, subtract savings, and
clamp the sign. -/
def pay_loans (N : ℕ) (ag : AgentMap) (lendingrate : ℚ) : AgentMap :=
  (List.range N).foldl
    (fun st i =>
      if (st i).loan ≠ 0 then
        if (st i).loan * (1 + lendingrate) - (st i).savings < 0 then
          updA st i
            { st i with
              savings := -((st i).loan * (1 + lendingrate) - (st i).savings),
              loan := 0 }
        else
          updA st i
            { st i with
              savings := 0,
              loan := (st i).loan * (1 + lendingrate) - (st i).savings }
      else st)
    ag

/-- The flag reset at the start of every tick (source line 672). -/
def resetFlags (ag : AgentMap) : AgentMap :=
  fun i =>
    { ag i with
      go := false, borrow := false, startup := false,
      move := false, thwart := false }

/-- A tick in which every churn trial fails: the flags are reset, no agent
runs decide, then distribute_output and (when lending) pay_loans still
run (source lines 671-693). -/
def tick_no_active (powB : ℚ → ℚ → ℚ) (P : Params) (N : ℕ) (ag : AgentMap)
    (F : Graph) : AgentMap × Graph :=
  let a1 := resetFlags ag
  let a2 := distribute_output powB a1 F N
  let a3 := if P.lending then pay_loans N a2 P.lendingrate else a2
  (a3, F)

/-- The agent dictionary entry of create_agents, with the random draws as
parameters. -/
def create_agent (i : ℕ) (theta a b beta rate : ℚ) : Agent :=
  { omega := 1, theta := theta, a := a, b := b, beta := beta, rate := rate,
    U_self := 0, e_self := 0, e_star := 0, firm := i, wage := 0,
    savings := 0, loan := 0, borrow := false, startup := false,
    move := false, thwart := false, go := false }

/-- The singleton_utility function of the source: one optimize_e call at
zero peer effort and headcount one, plus the singleton output. -/
def singleton_utility (Opt : OptFun) (powB : ℚ → ℚ → ℚ) (agent : Agent) :
    ℚ × ℚ × ℚ :=
  let r := Opt agent.a agent.b agent.beta agent.omega agent.theta 0 1
  (r.1, r.2, agent.a * r.1 + agent.b * powB agent.beta r.1)

/-- Agent initialization in action (lines 657-660): create, then store
e_self, U_self and the singleton output as the initial wage, and start
e_star at e_self. -/
def init_agent (Opt : OptFun) (powB : ℚ → ℚ → ℚ) (i : ℕ)
    (theta a b beta rate : ℚ) : Agent :=
  let ag0 := create_agent i theta a b beta rate
  let r := singleton_utility Opt powB ag0
  { ag0 with e_self := r.1, U_self := r.2.1, wage := r.2.2, e_star := r.1 }

/-!
Social network construction (source lines 116-123): the unbounded retry
loop over random degree sequences, with the randint draws as a stream and
the loop given explicit fuel so that its failure to terminate is a
statement.
-/

/-- Insertion into a descending-sorted list. -/
def insertDesc (x : ℕ) : List ℕ → List ℕ
  | [] => [x]
  | y :: ys => if y < x then x :: y :: ys else y :: insertDesc x ys

/-- Descending insertion sort. -/
def sortDesc (l : List ℕ) : List ℕ := l.foldr insertDesc []

/-- The nx.is_graphical test, by the Erdos-Gallai characterization. -/
def isGraphical (ds : List ℕ) : Bool :=
  let s := sortDesc ds
  decide (ds.sum % 2 = 0) &&
    (List.range ds.length).all fun k =>
      decide ((s.take (k + 1)).sum ≤
        (k + 1) * k + ((s.drop (k + 1)).map fun d => min d (k + 1)).sum)

/-- One degree-sequence draw: N values randint(mindegree, maxdegree) from
the raw draw stream. -/
def sample_degrees (N mindegree maxdegree : ℕ) (draw : ℕ → ℕ) (t : ℕ) :
    List ℕ :=
  (List.range N).map fun k =>
    mindegree + draw (t * N + k) % (maxdegree + 1 - mindegree)

/-- The while-True retry loop of social_network, with fuel: none means the
loop has not exited within fuel iterations. -/
def social_network_sample (N mindegree maxdegree : ℕ) (draw : ℕ → ℕ) :
    ℕ → ℕ → Option (List ℕ)
  | 0, _ => none
  | fuel + 1, t =>
      if isGraphical (sample_degrees N mindegree maxdegree draw t) then
        some (sample_degrees N mindegree maxdegree draw t)
      else social_network_sample N mindegree maxdegree draw fuel (t + 1)

/-!
Predicates and claim-modelled variants the claim theorems compare the
source functions against, plus concrete fixtures.
-/

/-- All four per-tick action flags clear, the state after the reset at the
start of a tick. -/
def flags_reset (x : Agent) : Prop :=
  x.borrow = false ∧ x.startup = false ∧ x.move = false ∧ x.thwart = false

/-- Number of set flags among the set {borrow, startup, move, thwart} the
claim ranges over. -/
def claim_flag_count (x : Agent) : ℕ :=
  (cond x.borrow 1 0) + (cond x.startup 1 0) + (cond x.move 1 0) +
    (cond x.thwart 1 0)

/-- Number of set flags among the three action flags
{startup, move, thwart}. -/
def action_flag_count (x : Agent) : ℕ :=
  (cond x.startup 1 0) + (cond x.move 1 0) + (cond x.thwart 1 0)

/-- Modelled from the claim for comparison (C4): the affordability gate as
the claim describes it, run only when the move cost exceeds savings, with
the principal that loan would need and the candidate firm's wage. -/
def other_skip_claim (P : Params) (ag : AgentMap) (i j : ℕ) : Bool :=
  P.debt_awareness && decide ((ag i).savings < (ag i).wage * P.move_rate) &&
    !(can_repay_loan (ag i) ((ag (ag j).firm).wage)
        ((ag i).wage * P.move_rate - (ag i).savings) P.lendingrate
        P.loan_repayment_lookahead)

/-- Modelled from the claim for comparison (C4): other_utility with the
claim's version of the gate. -/
def other_utility_claim4 (Opt : OptFun) (P : Params) (ag : AgentMap)
    (F S : Graph) (i : ℕ) (A : List ℕ) : ℚ × ℚ × ℕ :=
  (other_candidates S i A).foldl
    (fun best j =>
      if other_skip_claim P ag i j then best
      else other_consider Opt ag F i best j)
    (0, 0, 0)

/-- Modelled from the claim for comparison (C5): the candidate evaluation
with the aggregate effort of all of the firm's members and headcount one
more than the firm's member count. -/
def other_consider_claim (Opt : OptFun) (ag : AgentMap) (F : Graph) (i : ℕ)
    (best : ℚ × ℚ × ℕ) (j : ℕ) : ℚ × ℚ × ℕ :=
  let trial := (ag j).firm
  let D := F.componentOf j
  let n := D.length
  let E_o := (D.map fun k => (ag k).e_star).sum
  let r := Opt (ag trial).a (ag trial).b (ag trial).beta (ag i).omega
    (ag i).theta E_o (n + 1)
  if best.2.1 < r.2 then (r.1, r.2, trial) else best

/-- Modelled from the claim for comparison (C5): other_utility with the
claim's version of the candidate evaluation. -/
def other_utility_claim5 (Opt : OptFun) (P : Params) (ag : AgentMap)
    (F S : Graph) (i : ℕ) (A : List ℕ) : ℚ × ℚ × ℕ :=
  (other_candidates S i A).foldl
    (fun best j =>
      if other_skip P ag i j then best
      else other_consider_claim Opt ag F i best j)
    (0, 0, 0)

/-- Only wage and savings free between two agent states; everything else,
flags included, agrees. -/
def only_wage_savings (x y : Agent) : Prop :=
  y.firm = x.firm ∧ y.e_star = x.e_star ∧ y.loan = x.loan ∧
  y.borrow = x.borrow ∧ y.startup = x.startup ∧ y.move = x.move ∧
  y.thwart = x.thwart ∧ y.go = x.go ∧ y.omega = x.omega ∧
  y.theta = x.theta ∧ y.a = x.a ∧ y.b = x.b ∧ y.beta = x.beta ∧
  y.rate = x.rate ∧ y.U_self = x.U_self ∧ y.e_self = x.e_self

/-- Only savings and loan free between two agent states. -/
def only_savings_loan (x y : Agent) : Prop :=
  y.firm = x.firm ∧ y.e_star = x.e_star ∧ y.wage = x.wage ∧
  y.borrow = x.borrow ∧ y.startup = x.startup ∧ y.move = x.move ∧
  y.thwart = x.thwart ∧ y.go = x.go ∧ y.omega = x.omega ∧
  y.theta = x.theta ∧ y.a = x.a ∧ y.b = x.b ∧ y.beta = x.beta ∧
  y.rate = x.rate ∧ y.U_self = x.U_self ∧ y.e_self = x.e_self

/-- Fixture: isolated singleton agents, each owning itself, wage 1. -/
def c1Agents : AgentMap := fun j => { baseAgent with firm := j, wage := 1 }

/-- Fixture: lending on, debt-awareness off, unit move rate. -/
def c1Params : Params :=
  { move_rate := 1, startup_rate := 2, lending := true, lendingrate := 0,
    debt_awareness := false, loan_repayment_lookahead := 0 }

/-- Fixture optimizer: every call returns effort one half, utility one. -/
def c1Opt : OptFun := fun _ _ _ _ _ _ _ => (1 / 2, 1)

/-- Fixture social graph: the single edge 0 - 1. -/
def edge01 : Graph := ⟨[(0, 1)]⟩

/-- Fixture firm graph: no edges, everyone self-employed. -/
def emptyG : Graph := ⟨[]⟩

/-- Fixture (C4): agent 0 carries an outstanding loan of 50 but zero wage,
so no move cost and no loan need; everyone else clean. -/
def c4Agents : AgentMap :=
  fun j => { baseAgent with firm := j, loan := if j = 0 then 50 else 0 }

/-- Fixture (C4): debt-awareness on, lending rate 1, lookahead 1. -/
def c4Params : Params :=
  { move_rate := 1, startup_rate := 2, lending := true, lendingrate := 1,
    debt_awareness := true, loan_repayment_lookahead := 1 }

/-- Fixture (C5): firm {1, 2} owned by 1; member 1 has effort 1, others 0. -/
def c5Agents : AgentMap :=
  fun j =>
    { baseAgent with
      firm := if j = 2 then 1 else j,
      e_star := if j = 1 then 1 else 0 }

/-- Fixture optimizer (C5): utility reports the aggregate-effort argument
plus the headcount argument, making the passed arguments observable. -/
def c5Opt : OptFun := fun _ _ _ _ _ E n => (0, E + (n : ℚ))

/-- Fixture (C5): debt-awareness off. -/
def c5Params : Params :=
  { move_rate := 1, startup_rate := 2, lending := false, lendingrate := 0,
    debt_awareness := false, loan_repayment_lookahead := 0 }

/-- Fixture firm graph (C5): the single edge 1 - 2. -/
def edge12 : Graph := ⟨[(1, 2)]⟩

/-- Fixture (C8): one agent with effort 1, output constant b 1 and savings
rate 1, so distribution visibly moves savings. -/
def c8Agents : AgentMap := fun _ => { baseAgent with e_star := 1, b := 1, rate := 1 }

/-- Fixture (C8): lending off. -/
def c8Params : Params :=
  { move_rate := 1, startup_rate := 2, lending := false, lendingrate := 0,
    debt_awareness := false, loan_repayment_lookahead := 0 }

/-- Fixture power function: exponent one, E ** beta = E. -/
def powId : ℚ → ℚ → ℚ := fun _ E => E

/-- C9: the claim says social-network construction terminates for every
input, with a bounded number of degree-sequence retries and a
ConfigurationError when none is found.  The source's while-True loop has
no retry bound and the repository defines no ConfigurationError: at
N = 1 with degree bounds [1, 1] every draw yields the non-graphical
sequence [1] (odd degree sum), so the loop never exits no matter how much
fuel it is given or where in the draw stream it starts. -/
theorem c9_social_network_diverges (draw : ℕ → ℕ) :
    ∀ (fuel t : ℕ), social_network_sample 1 1 1 draw fuel t = none := by
  intro fuel
  induction fuel with
  | zero => intro t; rfl
  | succ n ih =>
      intro t
      rw [social_network_sample]
      have hs : sample_degrees 1 1 1 draw t = [1] := by
        simp [sample_degrees, Nat.mod_one]
      have hg : isGraphical [1] = false := by
        norm_num [isGraphical, sortDesc, insertDesc]
      rw [hs, hg]
      simp only [Bool.false_eq_true, if_false]
      exact ih (t + 1)

/-- C1: the claim says at most one of {borrow, startup, move, thwart} is
set within a tick.  The borrow branches of decide set borrow together
with move or startup: a singleton agent with wage 1 and no savings whose
neighbor offers higher utility borrows to move, ending the tick with both
move and borrow set. -/
theorem c1_counterexample :
    ((decide_fn c1Opt c1Params c1Agents emptyG edge01 0).2.2 0).move = true ∧
    ((decide_fn c1Opt c1Params c1Agents emptyG edge01 0).2.2 0).borrow = true ∧
    1 < claim_flag_count ((decide_fn c1Opt c1Params c1Agents emptyG edge01 0).2.2 0) := by
  norm_num [decide_fn, other_utility, other_candidates, other_skip,
    other_consider, can_repay_loan, current_utility, Graph.componentOf,
    Graph.compAux, Graph.growFrom, Graph.nbrs, Graph.insertNew, updA,
    c1Agents, c1Params, c1Opt, edge01, emptyG, baseAgent, claim_flag_count,
    List.filterMap_cons, List.filterMap_nil, List.foldl_cons, List.foldl_nil]

/-- C1 (amended): the flags are reset at the start of every tick, and
after one decide at most one of {startup, move, thwart} is set, while
borrow is only ever set together with move or with startup (a loan
origination accompanies the move or startup it finances). -/
theorem c1_flags (Opt : OptFun) (P : Params) (ag : AgentMap) (F S : Graph)
    (i j : ℕ) (h : flags_reset (ag j)) :
    flags_reset (resetFlags ag j) ∧
    action_flag_count ((decide_fn Opt P ag F S i).2.2 j) ≤ 1 ∧
    (((decide_fn Opt P ag F S i).2.2 j).borrow = true →
      ((decide_fn Opt P ag F S i).2.2 j).move = true ∨
        ((decide_fn Opt P ag F S i).2.2 j).startup = true) := by
  refine ⟨by simp [flags_reset, resetFlags], ?_⟩
  obtain ⟨hb, hs, hm, ht⟩ := h
  by_cases hji : j = i
  · subst hji
    simp only [decide_fn]
    split_ifs <;>
      simp [action_flag_count, updA_same, hb, hs, hm, ht]
  · simp only [decide_fn]
    split_ifs <;>
      simp [action_flag_count, updA_other _ _ _ _ hji, hb, hs, hm, ht]

theorem foldl_skip_eq_foldl_filter {α β : Type} (p : β → Bool) (f : α → β → α) :
    ∀ (l : List β) (a : α),
      l.foldl (fun x y => if p y then x else f x y) a =
        (l.filter fun y => !(p y)).foldl f a := by
  intro l
  induction l with
  | nil => intro a; rfl
  | cons b l ih =>
      intro a
      by_cases hb : p b
      · simp [List.filter_cons, hb, ih]
      · simp [List.filter_cons, hb, ih]

/-- C4 (amended): when debt-awareness is enabled the affordability check
runs for every candidate, whether or not the move would need a loan, with
the candidate firm owner's wage as the expected wage and the agent's
current outstanding loan as the principal; exactly the candidates failing
that check are skipped, their utility never computed. -/
theorem c4_debt_gate (Opt : OptFun) (P : Params) (ag : AgentMap)
    (F S : Graph) (i : ℕ) (A : List ℕ) :
    other_utility Opt P ag F S i A =
      ((other_candidates S i A).filter fun j => !(other_skip P ag i j)).foldl
        (other_consider Opt ag F i) (0, 0, 0) := by
  unfold other_utility
  exact foldl_skip_eq_foldl_filter (other_skip P ag i)
    (other_consider Opt ag F i) _ _

/-- C4: the claim says the check runs only when reaching the candidate
firm would require a loan, against the principal that loan would need.
The source instead always runs it (under debt-awareness) against the
agent's current outstanding loan: agent 0 has wage 0, so a move costs
nothing and needs no loan, yet its stale loan of 50 makes the source skip
the only candidate (returning the zero accumulator), while the claim's
version evaluates the candidate and returns its utility 1 and firm 1. -/
theorem c4_counterexample :
    (other_utility c1Opt c4Params c4Agents emptyG edge01 0 []).2.1 = 0 ∧
    (other_utility c1Opt c4Params c4Agents emptyG edge01 0 []).2.2 = 0 ∧
    (other_utility_claim4 c1Opt c4Params c4Agents emptyG edge01 0 []).2.1 = 1 ∧
    (other_utility_claim4 c1Opt c4Params c4Agents emptyG edge01 0 []).2.2 = 1 ∧
    ¬((c4Agents 0).savings < (c4Agents 0).wage * c4Params.move_rate) := by
  norm_num [other_utility, other_utility_claim4, other_candidates,
    other_skip, other_skip_claim, other_consider, can_repay_loan,
    Graph.componentOf, Graph.compAux, Graph.growFrom, Graph.nbrs,
    Graph.insertNew, updA, c4Agents, c4Params, c1Opt, edge01, emptyG,
    baseAgent, List.filterMap_cons, List.filterMap_nil]

/-- C5: the claim says each evaluated candidate's trial utility uses the
aggregate effort of all the candidate firm's members and headcount equal
to the member count plus one.  The source drops the contacted neighbor j
from both: with firm {1, 2} (owner 1, efforts 1 and 0) and an optimizer
reporting E_o plus headcount, the source computes 0 + 2 = 2 (effort of
member 2 only, headcount 2) where the claim's version computes
1 + 3 = 4. -/
theorem c5_counterexample :
    (other_utility c5Opt c5Params c5Agents edge12 edge01 0 []).2.1 = 2 ∧
    (other_utility_claim5 c5Opt c5Params c5Agents edge12 edge01 0 []).2.1 = 4 := by
  norm_num [other_utility, other_utility_claim5, other_candidates,
    other_skip, other_consider, other_consider_claim, can_repay_loan,
    Graph.componentOf, Graph.compAux, Graph.growFrom, Graph.nbrs,
    Graph.insertNew, updA, c5Agents, c5Params, c5Opt, edge12, edge01,
    baseAgent, List.filterMap_cons, List.filterMap_nil]

/-- C5 (amended): each evaluated candidate's trial utility is optimize_e
with the candidate firm owner's constants, the aggregate e_star of the
firm's members other than the contacted neighbor j, and headcount equal
to the firm's member count (the joining agent replaces j in the count
rather than being added to it). -/
theorem c5_trial_arguments (Opt : OptFun) (ag : AgentMap) (F : Graph)
    (i : ℕ) (best : ℚ × ℚ × ℕ) (j : ℕ) :
    other_consider Opt ag F i best j =
      (let trial := (ag j).firm
       let r := Opt (ag trial).a (ag trial).b (ag trial).beta (ag i).omega
         (ag i).theta
         (∑ k in (F.componentOf j).toFinset.erase j, (ag k).e_star)
         (F.componentOf j).toFinset.card
       if best.2.1 < r.2 then (r.1, r.2, trial) else best) := by
  have hnd : (F.componentOf j).Nodup := componentOf_nodup F j
  have hj : j ∈ F.componentOf j := mem_componentOf_self F j
  have hfin : ((F.componentOf j).erase j).toFinset =
      (F.componentOf j).toFinset.erase j := by
    ext x
    simp [List.mem_toFinset, hnd.mem_erase_iff, Finset.mem_erase]
  have hsum : (((F.componentOf j).erase j).map fun k => (ag k).e_star).sum =
      ∑ k in (F.componentOf j).toFinset.erase j, (ag k).e_star := by
    rw [← hfin, List.sum_toFinset _ (hnd.erase j)]
  have hlen : ((F.componentOf j).erase j).length + 1 =
      (F.componentOf j).toFinset.card := by
    rw [List.toFinset_card_of_nodup hnd]
    exact List.length_erase_add_one hj
  unfold other_consider
  simp only [hsum, hlen]

theorem foldl_preserves {α β : Type} (P : α → Prop) (f : α → β → α)
    (hf : ∀ a b, P a → P (f a b)) :
    ∀ (l : List β) (a : α), P a → P (l.foldl f a) := by
  intro l
  induction l with
  | nil => exact fun a h => h
  | cons b l ih => exact fun a h => ih _ (hf a b h)

theorem only_wage_savings_rfl (x : Agent) : only_wage_savings x x :=
  ⟨rfl, rfl, rfl, rfl, rfl, rfl, rfl, rfl, rfl, rfl, rfl, rfl, rfl, rfl,
    rfl, rfl⟩

theorem only_savings_loan_rfl (x : Agent) : only_savings_loan x x :=
  ⟨rfl, rfl, rfl, rfl, rfl, rfl, rfl, rfl, rfl, rfl, rfl, rfl, rfl, rfl,
    rfl, rfl⟩

theorem only_wage_savings_update {x y : Agent} (w s : ℚ)
    (h : only_wage_savings x y) :
    only_wage_savings x { y with wage := w, savings := s } := by
  simp_all [only_wage_savings]

theorem only_savings_loan_update {x y : Agent} (s l : ℚ)
    (h : only_savings_loan x y) :
    only_savings_loan x { y with savings := s, loan := l } := by
  simp_all [only_savings_loan]

theorem distribute_output_frame (powB : ℚ → ℚ → ℚ) (ag : AgentMap)
    (F : Graph) (N : ℕ) :
    ∀ j, only_wage_savings (ag j) (distribute_output powB ag F N j) := by
  unfold distribute_output
  refine foldl_preserves (fun st => ∀ j, only_wage_savings (ag j) (st j))
    _ ?_ _ ag (fun j => only_wage_savings_rfl (ag j))
  intro st g hst
  refine foldl_preserves (fun st2 => ∀ j, only_wage_savings (ag j) (st2 j))
    _ ?_ _ st hst
  intro st2 k hst2 j
  by_cases hjk : j = k
  · subst hjk
    rw [updA_same]
    exact only_wage_savings_update _ _ (hst2 j)
  · rw [updA_other _ _ _ _ hjk]
    exact hst2 j

theorem pay_loans_frame (N : ℕ) (ag : AgentMap) (lendingrate : ℚ) :
    ∀ j, only_savings_loan (ag j) (pay_loans N ag lendingrate j) := by
  unfold pay_loans
  refine foldl_preserves (fun st => ∀ j, only_savings_loan (ag j) (st j))
    _ ?_ _ ag (fun j => only_savings_loan_rfl (ag j))
  intro st k hst j
  by_cases hjk : j = k
  · subst hjk
    split_ifs with h1 h2
    · rw [updA_same]
      exact only_savings_loan_update _ _ (hst j)
    · rw [updA_same]
      exact only_savings_loan_update _ _ (hst j)
    · exact hst j
  · split_ifs with h1 h2
    · rw [updA_other _ _ _ _ hjk]
      exact hst j
    · rw [updA_other _ _ _ _ hjk]
      exact hst j
    · exact hst j

/-- C8 (amended): a tick in which no agent is active leaves the FirmGraph
topology and every agent's firm, e_star, production constants and
precomputed singleton values unchanged and clears the per-tick flags; it
does not leave wage, savings and loan unchanged, because
distribute_output and (when lending is on) pay_loans still run. -/
theorem c8_no_active_frame (powB : ℚ → ℚ → ℚ) (P : Params) (N : ℕ)
    (ag : AgentMap) (F : Graph) (j : ℕ) :
    (tick_no_active powB P N ag F).2 = F ∧
    ((tick_no_active powB P N ag F).1 j).firm = (ag j).firm ∧
    ((tick_no_active powB P N ag F).1 j).e_star = (ag j).e_star ∧
    ((tick_no_active powB P N ag F).1 j).a = (ag j).a ∧
    ((tick_no_active powB P N ag F).1 j).b = (ag j).b ∧
    ((tick_no_active powB P N ag F).1 j).beta = (ag j).beta ∧
    ((tick_no_active powB P N ag F).1 j).U_self = (ag j).U_self ∧
    ((tick_no_active powB P N ag F).1 j).e_self = (ag j).e_self ∧
    flags_reset ((tick_no_active powB P N ag F).1 j) := by
  obtain ⟨d1, d2, _, d4, d5, d6, d7, _, _, _, d11, d12, d13, _, d15, d16⟩ :=
    distribute_output_frame powB (resetFlags ag) F N j
  by_cases hl : P.lending = true
  · obtain ⟨p1, p2, _, p4, p5, p6, p7, _, _, _, p11, p12, p13, _, p15, p16⟩ :=
      pay_loans_frame N (distribute_output powB (resetFlags ag) F N)
        P.lendingrate j
    have hres : (tick_no_active powB P N ag F).1 j =
        pay_loans N (distribute_output powB (resetFlags ag) F N)
          P.lendingrate j := by
      simp [tick_no_active, hl]
    refine ⟨by simp [tick_no_active], ?_, ?_, ?_, ?_, ?_, ?_, ?_, ?_⟩
    · rw [hres, p1, d1]; rfl
    · rw [hres, p2, d2]; rfl
    · rw [hres, p11, d11]; rfl
    · rw [hres, p12, d12]; rfl
    · rw [hres, p13, d13]; rfl
    · rw [hres, p15, d15]; rfl
    · rw [hres, p16, d16]; rfl
    · exact ⟨by rw [hres, p4, d4]; rfl, by rw [hres, p5, d5]; rfl,
        by rw [hres, p6, d6]; rfl, by rw [hres, p7, d7]; rfl⟩
  · have hres : (tick_no_active powB P N ag F).1 j =
        distribute_output powB (resetFlags ag) F N j := by
      simp [tick_no_active, hl]
    refine ⟨by simp [tick_no_active], ?_, ?_, ?_, ?_, ?_, ?_, ?_, ?_⟩
    · rw [hres, d1]; rfl
    · rw [hres, d2]; rfl
    · rw [hres, d11]; rfl
    · rw [hres, d12]; rfl
    · rw [hres, d13]; rfl
    · rw [hres, d15]; rfl
    · rw [hres, d16]; rfl
    · exact ⟨by rw [hres, d4]; rfl, by rw [hres, d5]; rfl,
        by rw [hres, d6]; rfl, by rw [hres, d7]; rfl⟩

/-- C8: the claim says a tick with zero active agents leaves the entire
state of every agent unchanged.  It does not: distribute_output runs
every tick regardless of activity, so a lone self-employed agent with
effort 1, output constant b 1 and savings rate 1 gains savings during a
tick in which nobody is active. -/
theorem c8_counterexample :
    ((tick_no_active powId c8Params 1 c8Agents emptyG).1 0).savings ≠
      (c8Agents 0).savings := by
  norm_num [tick_no_active, resetFlags, distribute_output, comp_share,
    componentsOf, pay_loans, Graph.componentOf, Graph.compAux,
    Graph.growFrom, Graph.nbrs, Graph.insertNew, updA, powId, c8Agents,
    c8Params, baseAgent, emptyG, List.filterMap_nil, List.range_succ]

/-- The bounds of the claim: effort in the unit interval, savings and
loan nonnegative, together with the same bounds on the stored singleton
effort that the decision fallback writes back. -/
def claim6_inv (x : Agent) : Prop :=
  0 ≤ x.e_star ∧ x.e_star ≤ 1 ∧ 0 ≤ x.savings ∧ 0 ≤ x.loan ∧
  0 ≤ x.e_self ∧ x.e_self ≤ 1

theorem claim6_map_update {ag : AgentMap} (hag : ∀ j, claim6_inv (ag j))
    (i : ℕ) {x : Agent} (hx : claim6_inv x) :
    ∀ j, claim6_inv (updA ag i x j) := by
  intro j
  by_cases hji : j = i
  · subst hji; rw [updA_same]; exact hx
  · rw [updA_other _ _ _ _ hji]; exact hag j

/-- The optimizer contract: the bounded search returns an effort inside
its search interval [0, 1]. -/
def opt_e_bounded (Opt : OptFun) : Prop :=
  ∀ a b beta w theta Eo n, 0 ≤ (Opt a b beta w theta Eo n).1 ∧
    (Opt a b beta w theta Eo n).1 ≤ 1

theorem other_utility_e_bound (Opt : OptFun) (P : Params) (ag : AgentMap)
    (F S : Graph) (i : ℕ) (A : List ℕ) (hOpt : opt_e_bounded Opt) :
    0 ≤ (other_utility Opt P ag F S i A).1 ∧
      (other_utility Opt P ag F S i A).1 ≤ 1 := by
  unfold other_utility
  refine foldl_preserves (fun best : ℚ × ℚ × ℕ => 0 ≤ best.1 ∧ best.1 ≤ 1)
    _ ?_ _ _ ⟨le_refl 0, by norm_num⟩
  intro best j h
  by_cases hs : other_skip P ag i j
  · simp only [hs, if_true]; exact h
  · simp only [hs, Bool.false_eq_true, if_false]
    unfold other_consider
    dsimp only
    split_ifs
    · exact hOpt _ _ _ _ _ _ _
    · exact h

/-- decide mutates only agent i, and only its savings, loan and flags:
the result map is a pointwise update at i whose savings/loan either pay a
cost covered by savings, or zero the savings and borrow the uncovered
remainder, or stay put. -/
theorem decide_fn_shape (Opt : OptFun) (P : Params) (ag : AgentMap)
    (F S : Graph) (i : ℕ) :
    ∃ x c,
      (decide_fn Opt P ag F S i).2.2 = updA ag i x ∧
      x.e_star = (ag i).e_star ∧ x.e_self = (ag i).e_self ∧
      x.U_self = (ag i).U_self ∧ x.firm = (ag i).firm ∧
      x.wage = (ag i).wage ∧ x.omega = (ag i).omega ∧
      x.theta = (ag i).theta ∧ x.a = (ag i).a ∧ x.b = (ag i).b ∧
      x.beta = (ag i).beta ∧ x.rate = (ag i).rate ∧
      ((x.savings = (ag i).savings - c ∧ c ≤ (ag i).savings ∧
          x.loan = (ag i).loan) ∨
        (x.savings = 0 ∧ x.loan = c - (ag i).savings ∧
          ¬c ≤ (ag i).savings) ∨
        (x.savings = (ag i).savings ∧ x.loan = (ag i).loan)) := by
  have hself : ag = updA ag i (ag i) := by
    funext j
    by_cases hji : j = i
    · subst hji; rw [updA_same]
    · rw [updA_other _ _ _ _ hji]
  simp only [decide_fn]
  split_ifs with h1 h2 h3 h4 h5 h6 h7 h8 h9 h10 <;>
    first
      | exact ⟨ag i, 0, hself ▸ rfl, rfl, rfl, rfl, rfl, rfl, rfl, rfl,
          rfl, rfl, rfl, rfl, Or.inr (Or.inr ⟨rfl, rfl⟩)⟩
      | exact ⟨_, (ag i).wage * P.move_rate, rfl, rfl, rfl, rfl, rfl, rfl,
          rfl, rfl, rfl, rfl, rfl, rfl, Or.inl ⟨rfl, by assumption, rfl⟩⟩
      | exact ⟨_, (ag i).wage * P.move_rate, rfl, rfl, rfl, rfl, rfl, rfl,
          rfl, rfl, rfl, rfl, rfl, rfl,
          Or.inr (Or.inl ⟨rfl, rfl, by assumption⟩)⟩
      | exact ⟨_, P.startup_rate * (ag i).wage, rfl, rfl, rfl, rfl, rfl,
          rfl, rfl, rfl, rfl, rfl, rfl, rfl,
          Or.inl ⟨rfl, by assumption, rfl⟩⟩
      | exact ⟨_, P.startup_rate * (ag i).wage, rfl, rfl, rfl, rfl, rfl,
          rfl, rfl, rfl, rfl, rfl, rfl, rfl,
          Or.inr (Or.inl ⟨rfl, rfl, by assumption⟩)⟩
      | exact ⟨_, P.move_rate * (ag i).wage, rfl, rfl, rfl, rfl, rfl, rfl,
          rfl, rfl, rfl, rfl, rfl, rfl, Or.inl ⟨rfl, by assumption, rfl⟩⟩
      | exact ⟨_, P.move_rate * (ag i).wage, rfl, rfl, rfl, rfl, rfl, rfl,
          rfl, rfl, rfl, rfl, rfl, rfl,
          Or.inr (Or.inl ⟨rfl, rfl, by assumption⟩)⟩
      | exact ⟨_, 0, rfl, rfl, rfl, rfl, rfl, rfl, rfl, rfl, rfl, rfl,
          rfl, rfl, Or.inr (Or.inr ⟨rfl, rfl⟩)⟩

/-- The effort decide returns is one of: the best candidate effort, the
stored singleton effort, or the current-firm reoptimized effort. -/
theorem decide_fn_e_result (Opt : OptFun) (P : Params) (ag : AgentMap)
    (F S : Graph) (i : ℕ) :
    (decide_fn Opt P ag F S i).1 =
        (other_utility Opt P ag F S i ((F.componentOf i).erase i)).1 ∨
      (decide_fn Opt P ag F S i).1 = (ag i).e_self ∨
      (decide_fn Opt P ag F S i).1 =
        (current_utility Opt ag i ((F.componentOf i).erase i)).1 := by
  simp only [decide_fn]
  split_ifs <;> simp

theorem init_agent_claim6 (Opt : OptFun) (powB : ℚ → ℚ → ℚ) (i : ℕ)
    (theta a b beta rate : ℚ) (hOpt : opt_e_bounded Opt) :
    claim6_inv (init_agent Opt powB i theta a b beta rate) := by
  obtain ⟨h1, h2⟩ := hOpt a b beta 1 theta 0 1
  refine ⟨?_, ?_, ?_, ?_, ?_, ?_⟩ <;>
    simp [init_agent, create_agent, singleton_utility, h1, h2]

theorem decide_fn_claim6 (Opt : OptFun) (P : Params) (ag : AgentMap)
    (F S : Graph) (i : ℕ) (hOpt : opt_e_bounded Opt)
    (hag : ∀ j, claim6_inv (ag j)) :
    (∀ j, claim6_inv ((decide_fn Opt P ag F S i).2.2 j)) ∧
    0 ≤ (decide_fn Opt P ag F S i).1 ∧ (decide_fn Opt P ag F S i).1 ≤ 1 := by
  obtain ⟨x, c, hmap, hestar, heself, _, _, _, _, _, _, _, _, _, hsl⟩ :=
    decide_fn_shape Opt P ag F S i
  constructor
  · rw [hmap]
    refine claim6_map_update hag i ?_
    obtain ⟨a1, a2, a3, a4, a5, a6⟩ := hag i
    rcases hsl with ⟨hs, hc, hl⟩ | ⟨hs, hl, hc⟩ | ⟨hs, hl⟩ <;>
      exact ⟨hestar ▸ a1, hestar ▸ a2, by rw [hs]; try linarith,
        by rw [hl]; try linarith, heself ▸ a5, heself ▸ a6⟩
  · rcases decide_fn_e_result Opt P ag F S i with he | he | he
    · rw [he]
      exact other_utility_e_bound Opt P ag F S i _ hOpt
    · rw [he]
      exact ⟨(hag i).2.2.2.2.1, (hag i).2.2.2.2.2⟩
    · rw [he]
      unfold current_utility
      exact hOpt _ _ _ _ _ _ _

theorem comp_share_nonneg (powB : ℚ → ℚ → ℚ) (st : AgentMap) (g : List ℕ)
    (hpow : ∀ beta E, 0 ≤ E → 0 ≤ powB beta E)
    (he : ∀ j, 0 ≤ (st j).e_star)
    (hab : ∀ j, 0 ≤ (st j).a ∧ 0 ≤ (st j).b) :
    0 ≤ comp_share powB st g := by
  unfold comp_share
  have hE : 0 ≤ (g.map fun j => (st j).e_star).sum := by
    refine List.sum_nonneg ?_
    intro x hx
    rcases List.mem_map.mp hx with ⟨k, _, rfl⟩
    exact he k
  refine div_nonneg (add_nonneg (mul_nonneg ?_ hE) (mul_nonneg ?_ ?_)) ?_
  · exact (hab _).1
  · exact (hab _).2
  · exact hpow _ _ hE
  · positivity

theorem distribute_output_claim6 (powB : ℚ → ℚ → ℚ) (ag : AgentMap)
    (F : Graph) (N : ℕ) (hpow : ∀ beta E, 0 ≤ E → 0 ≤ powB beta E)
    (hag : ∀ j, claim6_inv (ag j))
    (hconst : ∀ j, 0 ≤ (ag j).a ∧ 0 ≤ (ag j).b ∧ 0 ≤ (ag j).rate) :
    ∀ j, claim6_inv (distribute_output powB ag F N j) := by
  have main : (∀ j, claim6_inv (distribute_output powB ag F N j)) ∧
      (∀ j, only_wage_savings (ag j) (distribute_output powB ag F N j)) := by
    unfold distribute_output
    refine foldl_preserves
      (fun st : AgentMap => (∀ j, claim6_inv (st j)) ∧
        (∀ j, only_wage_savings (ag j) (st j))) _ ?_ _ ag
      ⟨hag, fun j => only_wage_savings_rfl _⟩
    rintro st g ⟨h6, hw⟩
    have hsh : 0 ≤ comp_share powB st g := by
      refine comp_share_nonneg powB st g hpow (fun j => (h6 j).1) ?_
      intro j
      obtain ⟨_, _, _, _, _, _, _, _, _, _, ha, hb, _, _, _, _⟩ := hw j
      exact ⟨ha ▸ (hconst j).1, hb ▸ (hconst j).2.1⟩
    refine foldl_preserves
      (fun st2 : AgentMap => (∀ j, claim6_inv (st2 j)) ∧
        (∀ j, only_wage_savings (ag j) (st2 j))) _ ?_ _ st ⟨h6, hw⟩
    rintro st2 k ⟨h6b, hwb⟩
    constructor
    · intro j
      by_cases hjk : j = k
      · subst hjk
        rw [updA_same]
        obtain ⟨b1, b2, b3, b4, b5, b6⟩ := h6b j
        have hrate : (st2 j).rate = (ag j).rate := by
          obtain ⟨_, _, _, _, _, _, _, _, _, _, _, _, _, hr, _, _⟩ := hwb j
          exact hr
        refine ⟨b1, b2, ?_, b4, b5, b6⟩
        have : 0 ≤ comp_share powB st g * (st2 j).rate :=
          mul_nonneg hsh (hrate ▸ (hconst j).2.2)
        simp only []
        linarith
      · rw [updA_other _ _ _ _ hjk]
        exact h6b j
    · intro j
      by_cases hjk : j = k
      · subst hjk
        rw [updA_same]
        exact only_wage_savings_update _ _ (hwb j)
      · rw [updA_other _ _ _ _ hjk]
        exact hwb j
  exact main.1

theorem pay_loans_claim6 (N : ℕ) (ag : AgentMap) (lendingrate : ℚ)
    (hag : ∀ j, claim6_inv (ag j)) :
    ∀ j, claim6_inv (pay_loans N ag lendingrate j) := by
  unfold pay_loans
  refine foldl_preserves (fun st : AgentMap => ∀ j, claim6_inv (st j))
    _ ?_ _ ag hag
  intro st k h6 j
  by_cases hjk : j = k
  · subst hjk
    split_ifs with h1 h2
    · rw [updA_same]
      obtain ⟨b1, b2, b3, b4, b5, b6⟩ := h6 j
      exact ⟨b1, b2, by simp only []; linarith, by norm_num, b5, b6⟩
    · rw [updA_same]
      obtain ⟨b1, b2, b3, b4, b5, b6⟩ := h6 j
      exact ⟨b1, b2, by norm_num, by simp only []; linarith, b5, b6⟩
    · exact h6 j
  · split_ifs <;> [rw [updA_other _ _ _ _ hjk]; rw [updA_other _ _ _ _ hjk];
      skip] <;> exact h6 j

/-- C6: every agent satisfies e_star in [0, 1], savings nonnegative and
loan nonnegative after creation, and the bounds are preserved by every
decide (cost payment and loan origination included), by output
distribution and by loan service.  The optimizer's bounded-interval
contract, nonnegative production constants and savings rates, and a power
function nonnegative on nonnegative arguments are hypotheses; loan
service needs no hypothesis at all because of its sign clamp. -/
theorem c6_invariants (Opt : OptFun) (powB : ℚ → ℚ → ℚ) (P : Params)
    (F S : Graph) (N i0 : ℕ) (theta a b beta rate : ℚ)
    (hOpt : opt_e_bounded Opt)
    (hpow : ∀ beta E, 0 ≤ E → 0 ≤ powB beta E) :
    claim6_inv (init_agent Opt powB i0 theta a b beta rate) ∧
    (∀ (ag : AgentMap) (i : ℕ), (∀ j, claim6_inv (ag j)) →
      (∀ j, claim6_inv ((decide_fn Opt P ag F S i).2.2 j)) ∧
      0 ≤ (decide_fn Opt P ag F S i).1 ∧ (decide_fn Opt P ag F S i).1 ≤ 1) ∧
    (∀ ag : AgentMap, (∀ j, claim6_inv (ag j)) →
      (∀ j, 0 ≤ (ag j).a ∧ 0 ≤ (ag j).b ∧ 0 ≤ (ag j).rate) →
      ∀ j, claim6_inv (distribute_output powB ag F N j)) ∧
    (∀ (ag : AgentMap) (lendingrate : ℚ), (∀ j, claim6_inv (ag j)) →
      ∀ j, claim6_inv (pay_loans N ag lendingrate j)) :=
  ⟨init_agent_claim6 Opt powB i0 theta a b beta rate hOpt,
    fun ag i hag => decide_fn_claim6 Opt P ag F S i hOpt hag,
    fun ag hag hconst => distribute_output_claim6 powB ag F N hpow hag hconst,
    fun ag lendingrate hag => pay_loans_claim6 N ag lendingrate hag⟩

/-- Witness for C6 at a concrete configuration: the constant optimizer
returning effort one half, the identity power, one agent, and the loan
service applied to an agent with savings 0 and loan 1. -/
theorem c6_invariants_witness :
    claim6_inv (init_agent c1Opt powId 0 0 0 1 1 1) ∧
    claim6_inv (pay_loans 1 (fun _ => { baseAgent with loan := 1 }) 0 0) := by
  have h := c6_invariants c1Opt powId c1Params emptyG edge01 1 0 0 0 1 1 1
    (by intro a b beta w theta Eo n; constructor <;> norm_num [c1Opt])
    (by intro beta E hE; simpa [powId] using hE)
  refine ⟨h.1, ?_⟩
  refine h.2.2.2 (fun _ => { baseAgent with loan := 1 }) 0 ?_ 0
  intro j
  refine ⟨?_, ?_, ?_, ?_, ?_, ?_⟩ <;> norm_num [baseAgent]

theorem chstep_fold_spec (nown i : ℕ) (hno : nown ≠ i) :
    ∀ (l : List ℕ) (st : Graph × AgentMap), l.Nodup → nown ∉ l → i ∉ l →
      (∀ k, k ∉ l → (l.foldl (chstep nown i) st).2 k = st.2 k) ∧
      (∀ x y, x ∉ l → y ∉ l →
        ((l.foldl (chstep nown i) st).1.Adj x y ↔ st.1.Adj x y)) ∧
      (∀ j ∈ l, ((l.foldl (chstep nown i) st).2 j).firm = nown ∧
        (l.foldl (chstep nown i) st).1.Adj j nown ∧
        ¬(l.foldl (chstep nown i) st).1.Adj j i) ∧
      (∀ x y, (l.foldl (chstep nown i) st).1.Adj x y →
        st.1.Adj x y ∨ ∃ m ∈ l, (x = m ∧ y = nown) ∨ (x = nown ∧ y = m)) ∧
      (∀ k, ((l.foldl (chstep nown i) st).2 k).U_self = (st.2 k).U_self) := by
  intro l
  induction l with
  | nil =>
      intro st _ _ _
      refine ⟨fun k _ => rfl, fun x y _ _ => Iff.rfl, ?_, ?_, fun k => rfl⟩
      · intro j hj
        cases hj
      · intro x y hadj
        exact Or.inl hadj
  | cons m l ih =>
      intro st hnd hno2 hi2
      have hmnl : m ∉ l := (List.nodup_cons.mp hnd).1
      have hndl : l.Nodup := (List.nodup_cons.mp hnd).2
      have hnol : nown ∉ l := fun h => hno2 (List.mem_cons_of_mem m h)
      have hil : i ∉ l := fun h => hi2 (List.mem_cons_of_mem m h)
      have hnom : nown ≠ m := fun h => hno2 (h ▸ List.mem_cons_self m l)
      have him : i ≠ m := fun h => hi2 (h ▸ List.mem_cons_self m l)
      obtain ⟨iha, ihb, ihc, ihd, ihe⟩ := ih (chstep nown i st m) hndl hnol hil
      rw [List.foldl_cons]
      refine ⟨?_, ?_, ?_, ?_, ?_⟩
      · intro k hk
        have hkm : k ≠ m := fun h => hk (h ▸ List.mem_cons_self m l)
        have hkl : k ∉ l := fun h => hk (List.mem_cons_of_mem m h)
        rw [iha k hkl]
        exact updA_other _ _ _ _ hkm
      · intro x y hx hy
        have hxm : x ≠ m := fun h => hx (h ▸ List.mem_cons_self m l)
        have hym : y ≠ m := fun h => hy (h ▸ List.mem_cons_self m l)
        have hxl : x ∉ l := fun h => hx (List.mem_cons_of_mem m h)
        have hyl : y ∉ l := fun h => hy (List.mem_cons_of_mem m h)
        rw [ihb x y hxl hyl]
        unfold chstep
        rw [Graph.adj_removeEdge, Graph.adj_addEdge]
        constructor
        · rintro ⟨(h | ⟨rfl, rfl⟩ | ⟨rfl, rfl⟩), _⟩
          · exact h
          · exact absurd rfl hxm
          · exact absurd rfl hym
        · intro h
          refine ⟨Or.inl h, ?_⟩
          rintro (⟨rfl, rfl⟩ | ⟨rfl, rfl⟩)
          · exact hxm rfl
          · exact hym rfl
      · intro j hj
        rcases List.mem_cons.mp hj with rfl | hjl
        · refine ⟨?_, ?_, ?_⟩
          · rw [iha j hmnl]
            simp [chstep, updA]
          · rw [ihb j nown hmnl hnol]
            unfold chstep
            dsimp only
            rw [Graph.adj_removeEdge, Graph.adj_addEdge]
            refine ⟨Or.inr (Or.inl ⟨rfl, rfl⟩), ?_⟩
            rintro (⟨_, h⟩ | ⟨hji2, _⟩)
            · exact hno h
            · exact him hji2.symm
          · rw [ihb j i hmnl hil]
            unfold chstep
            rw [Graph.adj_removeEdge]
            rintro ⟨_, h⟩
            exact h (Or.inl ⟨rfl, rfl⟩)
        · exact ihc j hjl
      · intro x y hadj
        rcases ihd x y hadj with h | ⟨m2, hm2, hp⟩
        · unfold chstep at h
          rw [Graph.adj_removeEdge, Graph.adj_addEdge] at h
          rcases h.1 with h2 | ⟨rfl, rfl⟩ | ⟨rfl, rfl⟩
          · exact Or.inl h2
          · exact Or.inr ⟨x, List.mem_cons_self x l, Or.inl ⟨rfl, rfl⟩⟩
          · exact Or.inr ⟨y, List.mem_cons_self y l, Or.inr ⟨rfl, rfl⟩⟩
        · exact Or.inr ⟨m2, List.mem_cons_of_mem m hm2, hp⟩
      · intro k
        rw [ihe k]
        unfold chstep
        dsimp only
        by_cases hkm : k = m
        · subst hkm
          rw [updA_same]
        · rw [updA_other _ _ _ _ hkm]

/-- C7: when an owner i departs a firm with other members, the ownership
transfer makes the drawn remaining member the new owner (its firm_id its
own id), and every other former member's firm_id becomes the new owner,
its edge to i is removed and an edge to the new owner added; every agent
outside the firm is untouched.  The uniform draw enters as the choice
function pick, quantified over every pick that returns a member. -/
theorem c7_ownership_transfer (F : Graph) (i : ℕ) (A : List ℕ)
    (ag : AgentMap) (pick : List ℕ → ℕ) (hnd : A.Nodup) (hiA : i ∈ A)
    (h2 : 1 < A.length) (hpick : pick (A.erase i) ∈ A.erase i) :
    (pick (A.erase i) ∈ A ∧ pick (A.erase i) ≠ i) ∧
    ((change_ownership F i A ag pick).2 (pick (A.erase i))).firm =
      pick (A.erase i) ∧
    (∀ j ∈ A, j ≠ i → j ≠ pick (A.erase i) →
      ((change_ownership F i A ag pick).2 j).firm = pick (A.erase i) ∧
      (change_ownership F i A ag pick).1.Adj j (pick (A.erase i)) ∧
      ¬(change_ownership F i A ag pick).1.Adj j i) ∧
    (∀ j ∈ A, j ≠ i →
      (((change_ownership F i A ag pick).2 j).firm = j ↔
        j = pick (A.erase i))) ∧
    (∀ k, k ∉ A → (change_ownership F i A ag pick).2 k = ag k) := by
  set nown := pick (A.erase i) with hnowndef
  have hmem := (hnd.mem_erase_iff.mp hpick)
  have hnoi : nown ≠ i := hmem.1
  have hnoA : nown ∈ A := hmem.2
  have hnd1 : (A.erase i).Nodup := hnd.erase i
  have hno2 : nown ∉ (A.erase i).erase nown := by
    intro h
    exact absurd rfl (hnd1.mem_erase_iff.mp h).1
  have hi2 : i ∉ (A.erase i).erase nown := by
    intro h
    have := List.erase_subset _ _ h
    exact absurd rfl (hnd.mem_erase_iff.mp this).1
  have hnd2 : ((A.erase i).erase nown).Nodup := hnd1.erase nown
  obtain ⟨fa, fb, fc, _, _⟩ := chstep_fold_spec nown i hnoi
    ((A.erase i).erase nown)
    (F.removeEdge nown i, updA ag nown { ag nown with firm := nown })
    hnd2 hno2 hi2
  have hch : change_ownership F i A ag pick =
      (((A.erase i).erase nown).foldl (chstep nown i)
        (F.removeEdge nown i,
          updA ag nown { ag nown with firm := nown })) := rfl
  refine ⟨⟨hnoA, hnoi⟩, ?_, ?_, ?_, ?_⟩
  · rw [hch, fa nown hno2]
    simp [updA]
  · intro j hjA hji hjno
    have hj1 : j ∈ A.erase i := hnd.mem_erase_iff.mpr ⟨hji, hjA⟩
    have hj2 : j ∈ (A.erase i).erase nown :=
      hnd1.mem_erase_iff.mpr ⟨hjno, hj1⟩
    exact (hch ▸ fc j hj2)
  · intro j hjA hji
    constructor
    · intro hfj
      by_contra hjno
      have := ((hch ▸ fc j (hnd1.mem_erase_iff.mpr
        ⟨hjno, hnd.mem_erase_iff.mpr ⟨hji, hjA⟩⟩)) :).1
      rw [hfj] at this
      exact hjno this
    · intro hj
      rw [hj, hch, fa nown hno2]
      simp [updA]
  · intro k hk
    have hk2 : k ∉ (A.erase i).erase nown := by
      intro h
      exact hk (List.erase_subset _ _ (List.erase_subset _ _ h))
    have hkno : k ≠ nown := fun h => hk (h ▸ hnoA)
    rw [hch, fa k hk2]
    simp [updA, hkno]

/-- Witness for C7: firm {0, 1, 2} in a star on owner 0 who departs; the
pick takes the first remaining member, 1; member 2 ends owned by 1, wired
to 1 and unwired from 0. -/
theorem c7_ownership_transfer_witness :
    ((change_ownership ⟨[(1, 0), (2, 0)]⟩ 0 [0, 1, 2]
        (fun _ => baseAgent) (fun l => l.headD 0)).2 2).firm = 1 ∧
    (change_ownership ⟨[(1, 0), (2, 0)]⟩ 0 [0, 1, 2]
        (fun _ => baseAgent) (fun l => l.headD 0)).1.Adj 2 1 ∧
    ¬(change_ownership ⟨[(1, 0), (2, 0)]⟩ 0 [0, 1, 2]
        (fun _ => baseAgent) (fun l => l.headD 0)).1.Adj 2 0 :=
  (c7_ownership_transfer ⟨[(1, 0), (2, 0)]⟩ 0 [0, 1, 2]
      (fun _ => baseAgent) (fun l => l.headD 0)
      (by decide) (by decide) (by decide) (by decide)).2.2.1 2
    (by decide) (by decide) (by decide)

/-- The star-shape invariant of reachable firm-graph states: firm_id
pointers resolve to owners, every non-owner member has an edge to its
owner, every edge joins a member to its owner (self-loops exempt), and
stored singleton utilities are nonnegative. -/
def star_inv (ag : AgentMap) (F : Graph) : Prop :=
  (∀ v, (ag ((ag v).firm)).firm = (ag v).firm) ∧
  (∀ v, (ag v).firm ≠ v → F.Adj v ((ag v).firm)) ∧
  (∀ x y, F.Adj x y → x ≠ y → (ag x).firm = y ∨ (ag y).firm = x) ∧
  (∀ v, 0 ≤ (ag v).U_self)

/-- The optimizer contract: the attained utility, a product of
nonnegative powers, is nonnegative. -/
def opt_U_nonneg (Opt : OptFun) : Prop :=
  ∀ a b beta w theta Eo n, 0 ≤ (Opt a b beta w theta Eo n).2

theorem star_inv_transport {ag ag' : AgentMap} {F : Graph}
    (hfm : ∀ v, (ag' v).firm = (ag v).firm)
    (hU : ∀ v, (ag' v).U_self = (ag v).U_self)
    (h : star_inv ag F) : star_inv ag' F := by
  obtain ⟨h1, h2, h3, h4⟩ := h
  refine ⟨?_, ?_, ?_, ?_⟩
  · intro v
    rw [hfm v, hfm ((ag v).firm)]
    exact h1 v
  · intro v hv
    rw [hfm v] at hv ⊢
    exact h2 v hv
  · intro x y hadj hxy
    rw [hfm x, hfm y]
    exact h3 x y hadj hxy
  · intro v
    rw [hU v]
    exact h4 v

theorem no_followers {ag : AgentMap} {F : Graph} (h : star_inv ag F)
    {i : ℕ} (hi : (ag i).firm ≠ i) : ∀ v, (ag v).firm ≠ i := by
  intro v hv
  exact hi (by rw [← hv]; exact hv ▸ h.1 v)

theorem two_mem_one_lt_length {l : List ℕ} (hnd : l.Nodup) {a b : ℕ}
    (ha : a ∈ l) (hb : b ∈ l) (hab : a ≠ b) : 1 < l.length := by
  have hsub : ({a, b} : Finset ℕ) ⊆ l.toFinset := by
    intro x hx
    rcases Finset.mem_insert.mp hx with rfl | hx2
    · exact List.mem_toFinset.mpr ha
    · rw [Finset.mem_singleton.mp hx2]
      exact List.mem_toFinset.mpr hb
  have hcard : ({a, b} : Finset ℕ).card = 2 := by
    rw [Finset.card_insert_of_not_mem (by simp [hab]), Finset.card_singleton]
  have := Finset.card_le_card hsub
  rw [hcard, List.toFinset_card_of_nodup hnd] at this
  omega

theorem componentOf_eq_class {ag : AgentMap} {F : Graph}
    (h : star_inv ag F) (u : ℕ) :
    ∀ v, v ∈ F.componentOf u ↔ (ag v).firm = (ag u).firm := by
  obtain ⟨h1, h2, h3, _⟩ := h
  intro v
  constructor
  · refine fun hv => componentOf_sound F
      (fun x => (ag x).firm = (ag u).firm) rfl ?_ v hv
    intro a ha z hz
    have hadj : F.Adj a z := Graph.mem_nbrs.mp hz
    by_cases haz : a = z
    · rwa [haz] at ha
    · rcases h3 a z hadj haz with hf | hf
      · rw [← hf, h1 a]
        exact ha
      · have := h1 z
        rw [hf] at this
        exact hf.trans (this.symm.trans ha)
  · intro hv
    by_cases hvu : v = u
    · rw [hvu]
      exact mem_componentOf_self F u
    · by_cases hou : (ag u).firm = u
      · have hnv : (ag v).firm ≠ v := by
          rw [hv, hou]
          exact fun h => hvu h.symm
        have hadj := h2 v hnv
        rw [hv, hou] at hadj
        exact adj_mem_componentOf (mem_componentOf_self F u) hadj.symm
      · have hadjo := h2 u hou
        have ho : (ag u).firm ∈ F.componentOf u :=
          adj_mem_componentOf (mem_componentOf_self F u) hadjo
        by_cases hvo : v = (ag u).firm
        · rwa [hvo]
        · have hnv : (ag v).firm ≠ v := by
            rw [hv]
            exact fun h => hvo h.symm
          have hadj := h2 v hnv
          rw [hv] at hadj
          exact adj_mem_componentOf ho hadj.symm

theorem adj_rewire_formula (F : Graph) (i nf fi x y : ℕ) :
    (rewire_core ag2 F i fi nf).2.Adj x y ↔
      ((F.Adj x y ∨ (x = i ∧ y = nf) ∨ (x = nf ∧ y = i)) ∧
        ¬((x = i ∧ y = fi) ∨ (x = fi ∧ y = i))) := by
  show (if (F.addEdge i nf).hasEdge i fi then
      (F.addEdge i nf).removeEdge i fi else F.addEdge i nf).Adj x y ↔ _
  split_ifs with h
  · rw [Graph.adj_removeEdge, Graph.adj_addEdge]
  · rw [Graph.hasEdge_iff] at h
    rw [Graph.adj_addEdge]
    constructor
    · intro hx
      refine ⟨hx, ?_⟩
      rintro (⟨rfl, rfl⟩ | ⟨rfl, rfl⟩)
      · exact h (Graph.adj_addEdge.mpr hx)
      · refine h (Graph.adj_addEdge.mpr ?_)
        rcases hx with h2 | ⟨h2, h3⟩ | ⟨h2, h3⟩
        · exact Or.inl h2.symm
        · exact Or.inr (Or.inr ⟨h3, h2⟩)
        · exact Or.inr (Or.inl ⟨h3, h2⟩)
    · exact fun hx => hx.1

theorem rewire_core_star (ag2 : AgentMap) (Fco : Graph) (i firm nf : ℕ)
    (hne : nf ≠ firm)
    (hc2 : ∀ v, v ≠ i → (ag2 ((ag2 v).firm)).firm = (ag2 v).firm)
    (hb2 : ∀ v, v ≠ i → (ag2 v).firm ≠ v → Fco.Adj v ((ag2 v).firm))
    (ha2 : ∀ x y, Fco.Adj x y → x ≠ y → (ag2 x).firm = y ∨ (ag2 y).firm = x)
    (hd2 : ∀ v, 0 ≤ (ag2 v).U_self)
    (hNF : nf ≠ i → (ag2 nf).firm = nf)
    (hNP : ∀ v, v ≠ i → (ag2 v).firm ≠ i)
    (hIE : ∀ z, Fco.Adj i z → z ≠ i → z = firm) :
    star_inv (rewire_core ag2 Fco i firm nf).1
      (rewire_core ag2 Fco i firm nf).2 := by
  have hres : (rewire_core ag2 Fco i firm nf).1 =
      updA ag2 i { ag2 i with firm := nf } := rfl
  have hfm : ∀ v, ((rewire_core ag2 Fco i firm nf).1 v).firm =
      if v = i then nf else (ag2 v).firm := by
    intro v
    rw [hres]
    by_cases hv : v = i
    · subst hv
      rw [updA_same, if_pos rfl]
    · rw [updA_other _ _ _ _ hv, if_neg hv]
  have hUm : ∀ v, ((rewire_core ag2 Fco i firm nf).1 v).U_self =
      (ag2 v).U_self := by
    intro v
    rw [hres]
    by_cases hv : v = i
    · subst hv
      rw [updA_same]
    · rw [updA_other _ _ _ _ hv]
  refine ⟨?_, ?_, ?_, ?_⟩
  · intro v
    rw [hfm v]
    by_cases hv : v = i
    · rw [if_pos hv]
      by_cases hni : nf = i
      · rw [hfm nf, if_pos hni]
      · rw [hfm nf, if_neg hni]
        exact hNF hni
    · rw [if_neg hv]
      have hw : (ag2 v).firm ≠ i := hNP v hv
      rw [hfm ((ag2 v).firm), if_neg hw]
      exact hc2 v hv
  · intro v hv
    rw [hfm v] at hv ⊢
    by_cases hvi : v = i
    · rw [if_pos hvi] at hv ⊢
      subst hvi
      rw [adj_rewire_formula]
      refine ⟨Or.inr (Or.inl ⟨rfl, rfl⟩), ?_⟩
      rintro (⟨_, h⟩ | ⟨_, h2⟩)
      · exact hne h
      · exact hv h2
    · rw [if_neg hvi] at hv ⊢
      rw [adj_rewire_formula]
      refine ⟨Or.inl (hb2 v hvi hv), ?_⟩
      rintro (⟨h1, _⟩ | ⟨_, h2⟩)
      · exact hvi h1
      · exact hNP v hvi h2
  · intro x y hadj hxy
    rw [adj_rewire_formula] at hadj
    obtain ⟨hor, hnp⟩ := hadj
    rw [hfm x, hfm y]
    rcases hor with hF | ⟨rfl, rfl⟩ | ⟨rfl, rfl⟩
    · by_cases hxi : x = i
      · subst hxi
        have := hIE y hF (fun h => hxy h.symm)
        exact absurd (Or.inl ⟨rfl, this⟩) hnp
      · by_cases hyi : y = i
        · subst hyi
          have := hIE x hF.symm hxi
          exact absurd (Or.inr ⟨this, rfl⟩) hnp
        · rw [if_neg hxi, if_neg hyi]
          exact ha2 x y hF hxy
    · exact Or.inl (by rw [if_pos rfl])
    · exact Or.inr (by rw [if_pos rfl])
  · intro v
    rw [hUm v]
    exact hd2 v

theorem graph_rewire_star (pick : List ℕ → ℕ) (ag1 : AgentMap) (F : Graph)
    (i firm nf : ℕ)
    (hpick : ∀ l, l ≠ [] → pick l ∈ l)
    (hstar : star_inv ag1 F)
    (hfi : (ag1 i).firm = firm)
    (hnf : nf = firm ∨ nf = i ∨ ∃ j, nf = (ag1 j).firm) :
    star_inv (graph_rewire pick ag1 F i firm nf).1
      (graph_rewire pick ag1 F i firm nf).2 := by
  obtain ⟨h1, h2, h3, h4⟩ := hstar
  unfold graph_rewire
  by_cases hne : nf ≠ firm
  swap
  · rw [if_neg hne]
    exact ⟨h1, h2, h3, h4⟩
  rw [if_pos hne]
  have hNFgen : nf ≠ i → (ag1 nf).firm = nf := by
    intro hni
    rcases hnf with h | h | ⟨j, hj⟩
    · exact absurd h hne
    · exact absurd h hni
    · rw [hj]
      exact hj ▸ h1 j
  by_cases hG : firm = i ∧ 1 < (F.componentOf i).length
  · rw [if_pos hG]
    obtain ⟨hfii, hlen⟩ := hG
    have hstar1 : star_inv ag1 F := ⟨h1, h2, h3, h4⟩
    have hclass := componentOf_eq_class hstar1 i
    have hfi_i : (ag1 i).firm = i := by rw [hfi, hfii]
    have hndA : (F.componentOf i).Nodup := componentOf_nodup F i
    have hiA : i ∈ F.componentOf i := mem_componentOf_self F i
    have hA1ne : (F.componentOf i).erase i ≠ [] := by
      have hl := List.length_erase_add_one hiA
      intro h
      rw [h] at hl
      simp only [List.length_nil] at hl
      omega
    set A := F.componentOf i with hAdef
    set nown := pick (A.erase i) with hnowndef
    have hpk : nown ∈ A.erase i := hpick _ hA1ne
    have hnoi : nown ≠ i := (hndA.mem_erase_iff.mp hpk).1
    have hnoA : nown ∈ A := (hndA.mem_erase_iff.mp hpk).2
    have hfno : (ag1 nown).firm = i := by
      have := (hclass nown).mp hnoA
      rwa [hfi_i] at this
    have hnd1 : (A.erase i).Nodup := hndA.erase i
    have hno2 : nown ∉ (A.erase i).erase nown :=
      fun h => absurd rfl (hnd1.mem_erase_iff.mp h).1
    have hi2 : i ∉ (A.erase i).erase nown :=
      fun h => absurd rfl
        (hndA.mem_erase_iff.mp (List.erase_subset _ _ h)).1
    have hnd2 : ((A.erase i).erase nown).Nodup := hnd1.erase nown
    obtain ⟨fa, fb, fc, fd, fe⟩ := chstep_fold_spec nown i hnoi
      ((A.erase i).erase nown)
      (F.removeEdge nown i, updA ag1 nown { ag1 nown with firm := nown })
      hnd2 hno2 hi2
    have hch : change_ownership F i A ag1 pick =
        ((A.erase i).erase nown).foldl (chstep nown i)
          (F.removeEdge nown i,
            updA ag1 nown { ag1 nown with firm := nown }) := rfl
    have hmemA2 : ∀ k, k ∈ (A.erase i).erase nown ↔
        (k ≠ nown ∧ k ≠ i ∧ k ∈ A) := by
      intro k
      rw [hnd1.mem_erase_iff, hndA.mem_erase_iff]
    have hAk : ∀ k, k ∈ A ↔ (ag1 k).firm = i := by
      intro k
      rw [hclass k, hfi_i]
    have hfnown : ((change_ownership F i A ag1 pick).2 nown).firm = nown := by
      rw [hch, fa nown hno2]
      simp [updA]
    have hfA2 : ∀ k ∈ (A.erase i).erase nown, ((change_ownership F i A ag1 pick).2 k).firm = nown := by
      intro k hk
      have := (fc k hk).1
      rw [hch]
      exact this
    have hfout : ∀ k, k ≠ nown → k ∉ (A.erase i).erase nown →
        (change_ownership F i A ag1 pick).2 k = ag1 k := by
      intro k hk1 hk2
      rw [hch, fa k hk2]
      simp [updA, hk1]
    have hd2 : ∀ v, 0 ≤ ((change_ownership F i A ag1 pick).2 v).U_self := by
      intro v
      rw [hch, fe v]
      by_cases hv : v = nown
      · subst hv
        simpa [updA] using h4 nown
      · simpa [updA, hv] using h4 v
    have hNP2 : ∀ v, v ≠ i → ((change_ownership F i A ag1 pick).2 v).firm ≠ i := by
      intro v hvi
      by_cases hv : v = nown
      · subst hv
        rw [hfnown]
        exact hnoi
      · by_cases hv2 : v ∈ (A.erase i).erase nown
        · rw [hfA2 v hv2]
          exact hnoi
        · rw [hfout v hv hv2]
          intro hcontr
          exact hv2 ((hmemA2 v).mpr ⟨hv, hvi, (hAk v).mpr hcontr⟩)
    have hwfacts : ∀ v, v ≠ i → v ≠ nown → v ∉ (A.erase i).erase nown →
        (ag1 v).firm ≠ i ∧ (ag1 v).firm ≠ nown ∧
          (ag1 v).firm ∉ (A.erase i).erase nown := by
      intro v hvi hvn hv2
      have hvnA : (ag1 v).firm ≠ i :=
        fun hcontr => hv2 ((hmemA2 v).mpr ⟨hvn, hvi, (hAk v).mpr hcontr⟩)
      have hww : (ag1 ((ag1 v).firm)).firm = (ag1 v).firm := h1 v
      have hwno : (ag1 v).firm ≠ nown := by
        intro h
        rw [h] at hww
        exact hnoi (hww.symm.trans hfno)
      refine ⟨hvnA, hwno, ?_⟩
      intro h
      exact hvnA (hww.symm.trans
        ((hAk ((ag1 v).firm)).mp ((hmemA2 ((ag1 v).firm)).mp h).2.2))
    have hnfA : nf ≠ i → nf ∉ A ∧ nf ≠ nown := by
      intro hni
      have hof := hNFgen hni
      constructor
      · intro hmem
        exact hni (hof.symm.trans ((hAk nf).mp hmem))
      · intro h
        rw [h] at hof
        exact hnoi (hof.symm.trans hfno)
    have hNF2 : nf ≠ i → ((change_ownership F i A ag1 pick).2 nf).firm = nf := by
      intro hni
      obtain ⟨hnA, hnn⟩ := hnfA hni
      have hnotm : nf ∉ (A.erase i).erase nown :=
        fun h => hnA ((hmemA2 nf).mp h).2.2
      rw [hfout nf hnn hnotm]
      exact hNFgen hni
    have hc2 : ∀ v, v ≠ i → ((change_ownership F i A ag1 pick).2 (((change_ownership F i A ag1 pick).2 v).firm)).firm = ((change_ownership F i A ag1 pick).2 v).firm := by
      intro v hvi
      by_cases hv : v = nown
      · subst hv
        rw [hfnown, hfnown]
      · by_cases hv2 : v ∈ (A.erase i).erase nown
        · rw [hfA2 v hv2, hfnown]
        · rw [hfout v hv hv2]
          obtain ⟨hwi, hwno, hwA2⟩ := hwfacts v hvi hv hv2
          rw [hfout ((ag1 v).firm) hwno hwA2]
          exact h1 v
    have hb2 : ∀ v, v ≠ i → ((change_ownership F i A ag1 pick).2 v).firm ≠ v →
        (change_ownership F i A ag1 pick).1.Adj v (((change_ownership F i A ag1 pick).2 v).firm) := by
      intro v hvi hne2
      by_cases hv : v = nown
      · subst hv
        rw [hfnown] at hne2
        exact absurd rfl hne2
      · by_cases hv2 : v ∈ (A.erase i).erase nown
        · rw [hfA2 v hv2]
          have := (fc v hv2).2.1
          rw [hch]
          exact this
        · rw [hfout v hv hv2] at hne2 ⊢
          obtain ⟨hwi, hwno, hwA2⟩ := hwfacts v hvi hv hv2
          have hAdjF := h2 v hne2
          rw [hch]
          refine (fb v ((ag1 v).firm) hv2 hwA2).mpr ?_
          rw [Graph.adj_removeEdge]
          refine ⟨hAdjF, ?_⟩
          rintro (⟨h5, _⟩ | ⟨h5, _⟩)
          · exact hv h5
          · exact hvi h5
    have ha2 : ∀ x y, (change_ownership F i A ag1 pick).1.Adj x y → x ≠ y →
        ((change_ownership F i A ag1 pick).2 x).firm = y ∨ ((change_ownership F i A ag1 pick).2 y).firm = x := by
      intro x y hadj hxy
      rw [hch] at hadj
      rcases fd x y hadj with hst | ⟨m, hm, hp⟩
      · rw [Graph.adj_removeEdge] at hst
        obtain ⟨hF, hnp⟩ := hst
        rcases h3 x y hF hxy with hf | hf
        · by_cases hx2 : x ∈ (A.erase i).erase nown
          · have hyi : y = i :=
              hf.symm.trans ((hAk x).mp ((hmemA2 x).mp hx2).2.2)
            rw [hyi] at hadj
            exact absurd hadj (fc x hx2).2.2
          · by_cases hxno : x = nown
            · have hyi : y = i := hf.symm.trans (hxno ▸ hfno)
              exact absurd (Or.inl ⟨hxno, hyi⟩) hnp
            · by_cases hxi : x = i
              · rw [hxi, hfi_i] at hf
                exact absurd (hxi.trans hf) hxy
              · left
                rw [hfout x hxno hx2]
                exact hf
        · by_cases hy2 : y ∈ (A.erase i).erase nown
          · have hxi : x = i :=
              hf.symm.trans ((hAk y).mp ((hmemA2 y).mp hy2).2.2)
            rw [hxi] at hadj
            exact absurd hadj.symm (fc y hy2).2.2
          · by_cases hyno : y = nown
            · have hxi : x = i := hf.symm.trans (hyno ▸ hfno)
              exact absurd (Or.inr ⟨hxi, hyno⟩) hnp
            · by_cases hyi : y = i
              · rw [hyi, hfi_i] at hf
                exact absurd (hyi.trans hf).symm hxy
              · right
                rw [hfout y hyno hy2]
                exact hf
      · rcases hp with ⟨rfl, rfl⟩ | ⟨rfl, rfl⟩
        · left
          rw [hfA2 x hm]
        · right
          rw [hfA2 y hm]
    have hIE2 : ∀ z, (change_ownership F i A ag1 pick).1.Adj i z → z ≠ i → z = firm := by
      intro z hadj hzi
      rw [hch] at hadj
      rcases fd i z hadj with hst | ⟨m, hm, hp⟩
      · rw [Graph.adj_removeEdge] at hst
        obtain ⟨hF, hnp⟩ := hst
        rcases h3 i z hF (fun h => hzi h.symm) with hf | hf
        · rw [hfi_i] at hf
          exact absurd hf.symm hzi
        · have hzA : z ∈ A := (hAk z).mpr hf
          by_cases hzno : z = nown
          · exact absurd (Or.inr ⟨rfl, hzno⟩) hnp
          · have hz2 : z ∈ (A.erase i).erase nown :=
              (hmemA2 z).mpr ⟨hzno, hzi, hzA⟩
            exact absurd hadj.symm (fc z hz2).2.2
      · rcases hp with ⟨hi_eq, _⟩ | ⟨hi_eq, _⟩
        · exact absurd (hi_eq ▸ hm) hi2
        · exact absurd hi_eq.symm hnoi
    exact rewire_core_star (change_ownership F i A ag1 pick).2
      (change_ownership F i A ag1 pick).1 i firm nf hne hc2 hb2 ha2 hd2
      hNF2 hNP2 hIE2
  · rw [if_neg hG]
    have hNP : ∀ v, v ≠ i → (ag1 v).firm ≠ i := by
      by_cases hfii : firm = i
      · intro v hvi hv
        have hclass := componentOf_eq_class ⟨h1, h2, h3, h4⟩ i
        have hvmem : v ∈ F.componentOf i :=
          (hclass v).mpr (by rw [hv, hfi, hfii])
        exact hG ⟨hfii, two_mem_one_lt_length (componentOf_nodup F i)
          hvmem (mem_componentOf_self F i) hvi⟩
      · intro v _
        exact no_followers ⟨h1, h2, h3, h4⟩ (by rw [hfi]; exact hfii) v
    refine rewire_core_star ag1 F i firm nf hne
      (fun v _ => h1 v) (fun v _ => h2 v) h3 h4 hNFgen hNP ?_
    intro z hz hzi
    rcases h3 i z hz (fun h => hzi h.symm) with hf | hf
    · exact hf.symm.trans hfi
    · exact absurd hf (hNP z hzi)

theorem other_utility_firm_cases (Opt : OptFun) (P : Params) (ag : AgentMap)
    (F S : Graph) (i : ℕ) (A : List ℕ) :
    0 ≤ (other_utility Opt P ag F S i A).2.1 ∧
    (0 < (other_utility Opt P ag F S i A).2.1 →
      ∃ j, (other_utility Opt P ag F S i A).2.2 = (ag j).firm) := by
  unfold other_utility
  refine foldl_preserves
    (fun best : ℚ × ℚ × ℕ => 0 ≤ best.2.1 ∧
      (0 < best.2.1 → ∃ j, best.2.2 = (ag j).firm)) _ ?_ _ _
    ⟨le_refl 0, fun h => absurd h (lt_irrefl 0)⟩
  intro best j h
  by_cases hs : other_skip P ag i j
  · simp only [hs, if_true]
    exact h
  · simp only [hs, Bool.false_eq_true, if_false]
    unfold other_consider
    dsimp only
    split_ifs with hlt
    · exact ⟨le_of_lt (lt_of_le_of_lt h.1 hlt), fun _ => ⟨j, rfl⟩⟩
    · exact h

/-- The firm decide returns is the old firm (stay or thwart), the agent
itself (startup), or the firm pointer of some agent (an accepted move to
the best candidate's firm). -/
theorem decide_fn_firm_cases (Opt : OptFun) (P : Params) (ag : AgentMap)
    (F S : Graph) (i : ℕ) (hU : 0 ≤ (ag i).U_self) :
    (decide_fn Opt P ag F S i).2.1 = (ag i).firm ∨
    (decide_fn Opt P ag F S i).2.1 = i ∨
    ∃ j, (decide_fn Opt P ag F S i).2.1 = (ag j).firm := by
  obtain ⟨hge, hex⟩ :=
    other_utility_firm_cases Opt P ag F S i ((F.componentOf i).erase i)
  simp only [decide_fn]
  split_ifs <;>
    first
      | exact Or.inl rfl
      | exact Or.inr (Or.inl rfl)
      | (refine Or.inr (Or.inr (hex (lt_of_le_of_lt hU ?_)))
         first
           | assumption
           | (have h5 : ¬(max
                 (max (current_utility Opt ag i ((F.componentOf i).erase i)).2
                   (other_utility Opt P ag F S i
                     ((F.componentOf i).erase i)).2.1)
                 ((ag i).U_self) = (ag i).U_self) := by assumption
              have h8 : max
                  (max (current_utility Opt ag i ((F.componentOf i).erase i)).2
                    (other_utility Opt P ag F S i
                      ((F.componentOf i).erase i)).2.1)
                  ((ag i).U_self) =
                  (other_utility Opt P ag F S i
                    ((F.componentOf i).erase i)).2.1 := by assumption
              exact h8 ▸ lt_of_le_of_ne (le_max_right _ _)
                (fun hc => h5 hc.symm)))

theorem agent_block_star (Opt : OptFun) (P : Params) (pick : List ℕ → ℕ)
    (S : Graph) (ag : AgentMap) (F : Graph) (i : ℕ)
    (hpick : ∀ l, l ≠ [] → pick l ∈ l)
    (h : star_inv ag F) :
    star_inv (agent_block Opt P pick S ag F i).1
      (agent_block Opt P pick S ag F i).2 := by
  have hag0f : ∀ v,
      ((updA ag i { ag i with go := true }) v).firm = (ag v).firm := by
    intro v
    by_cases hv : v = i
    · subst hv
      rw [updA_same]
    · rw [updA_other _ _ _ _ hv]
  have hag0U : ∀ v,
      ((updA ag i { ag i with go := true }) v).U_self = (ag v).U_self := by
    intro v
    by_cases hv : v = i
    · subst hv
      rw [updA_same]
    · rw [updA_other _ _ _ _ hv]
  have hstar0 : star_inv (updA ag i { ag i with go := true }) F :=
    star_inv_transport hag0f hag0U h
  obtain ⟨x, c, hmap, hxe, _, hxU, hxf, _⟩ :=
    decide_fn_shape Opt P (updA ag i { ag i with go := true }) F S i
  have hag1f : ∀ v,
      ((updA (decide_fn Opt P (updA ag i { ag i with go := true }) F S i).2.2 i
        { (decide_fn Opt P (updA ag i { ag i with go := true }) F S i).2.2 i with
          e_star := (decide_fn Opt P (updA ag i { ag i with go := true }) F S i).1 }) v).firm =
      ((updA ag i { ag i with go := true }) v).firm := by
    intro v
    by_cases hv : v = i
    · rw [hv, updA_same]
      show ((decide_fn Opt P (updA ag i { ag i with go := true }) F S i).2.2 i).firm = _
      rw [hmap, updA_same]
      exact hxf
    · rw [updA_other _ _ _ _ hv, hmap, updA_other _ _ _ _ hv]
  have hag1U : ∀ v,
      ((updA (decide_fn Opt P (updA ag i { ag i with go := true }) F S i).2.2 i
        { (decide_fn Opt P (updA ag i { ag i with go := true }) F S i).2.2 i with
          e_star := (decide_fn Opt P (updA ag i { ag i with go := true }) F S i).1 }) v).U_self =
      ((updA ag i { ag i with go := true }) v).U_self := by
    intro v
    by_cases hv : v = i
    · rw [hv, updA_same]
      show ((decide_fn Opt P (updA ag i { ag i with go := true }) F S i).2.2 i).U_self = _
      rw [hmap, updA_same]
      exact hxU
    · rw [updA_other _ _ _ _ hv, hmap, updA_other _ _ _ _ hv]
  have hstar1 := star_inv_transport hag1f hag1U hstar0
  have hU0 : 0 ≤ ((updA ag i { ag i with go := true }) i).U_self :=
    hstar0.2.2.2 i
  have hcases := decide_fn_firm_cases Opt P
    (updA ag i { ag i with go := true }) F S i hU0
  show star_inv (graph_rewire pick _ F i
      ((updA ag i { ag i with go := true }) i).firm
      (decide_fn Opt P (updA ag i { ag i with go := true }) F S i).2.1).1
    (graph_rewire pick _ F i _ _).2
  refine graph_rewire_star pick _ F i _ _ hpick hstar1 ?_ ?_
  · rw [hag1f i]
  · rcases hcases with hc | hc | ⟨j, hc⟩
    · exact Or.inl hc
    · exact Or.inr (Or.inl hc)
    · exact Or.inr (Or.inr ⟨j, hc.trans (hag1f j).symm⟩)

/-- The firm-graph states the main loop reaches: initialization gives
every agent its own firm and an empty firm graph (lines 652-668), and each
tick then resets flags, runs the per-agent decide/rewire block for the
active agents in some order, distributes output and services loans (lines
671-693).  Listing the four tick operations as freely composable steps
over-approximates the reachable set, so an invariant of every step holds
in particular of every actually reachable state. -/
inductive Reach (Opt : OptFun) (powB : ℚ → ℚ → ℚ) (P : Params)
    (pick : List ℕ → ℕ) (S : Graph) : AgentMap × Graph → Prop
  | init (theta a b beta rate : ℕ → ℚ) :
      Reach Opt powB P pick S
        (fun i => init_agent Opt powB i (theta i) (a i) (b i) (beta i)
          (rate i), ⟨[]⟩)
  | reset {st : AgentMap × Graph} (h : Reach Opt powB P pick S st) :
      Reach Opt powB P pick S (resetFlags st.1, st.2)
  | agent {st : AgentMap × Graph} (i : ℕ)
      (h : Reach Opt powB P pick S st) :
      Reach Opt powB P pick S (agent_block Opt P pick S st.1 st.2 i)
  | distribute {st : AgentMap × Graph} (N : ℕ)
      (h : Reach Opt powB P pick S st) :
      Reach Opt powB P pick S (distribute_output powB st.1 st.2 N, st.2)
  | pay {st : AgentMap × Graph} (N : ℕ)
      (h : Reach Opt powB P pick S st) :
      Reach Opt powB P pick S (pay_loans N st.1 P.lendingrate, st.2)

theorem reach_star {Opt : OptFun} {powB : ℚ → ℚ → ℚ} {P : Params}
    {pick : List ℕ → ℕ} {S : Graph} {st : AgentMap × Graph}
    (hopt : opt_U_nonneg Opt)
    (hpick : ∀ l, l ≠ [] → pick l ∈ l)
    (h : Reach Opt powB P pick S st) : star_inv st.1 st.2 := by
  induction h with
  | init theta a b beta rate =>
      refine ⟨fun v => rfl, fun v hv => absurd rfl hv, ?_, ?_⟩
      · intro x y hadj _
        rcases hadj with hm | hm <;> exact absurd hm (List.not_mem_nil _)
      · intro v
        exact hopt (a v) (b v) (beta v) 1 (theta v) 0 1
  | reset h ih =>
      exact star_inv_transport (fun v => rfl) (fun v => rfl) ih
  | agent i h ih =>
      exact agent_block_star _ _ _ _ _ _ i hpick ih
  | distribute N h ih =>
      refine star_inv_transport
        (fun v => (distribute_output_frame powB _ _ N v).1) (fun v => ?_) ih
      obtain ⟨-, -, -, -, -, -, -, -, -, -, -, -, -, -, hU, -⟩ :=
        distribute_output_frame powB _ _ N v
      exact hU
  | pay N h ih =>
      refine star_inv_transport
        (fun v => (pay_loans_frame N _ P.lendingrate v).1) (fun v => ?_) ih
      obtain ⟨-, -, -, -, -, -, -, -, -, -, -, -, -, -, hU, -⟩ :=
        pay_loans_frame N _ P.lendingrate v
      exact hU

theorem star_remove_targets {ag : AgentMap} {F : Graph}
    (h : star_inv ag F) (i : ℕ) (hi : (ag i).firm = i) :
    ∀ j ∈ (F.componentOf i).erase i, F.Adj j i := by
  intro j hj
  obtain ⟨hne, hjm⟩ := (componentOf_nodup F i).mem_erase_iff.mp hj
  have hfj : (ag j).firm = i := by
    rw [(componentOf_eq_class h i j).mp hjm, hi]
  rw [← hfj]
  exact h.2.1 j (by rw [hfj]; exact hne.symm)

/-- C10: in every reachable firm-graph state, firm pointers are
idempotent (owners own themselves), every non-owner member holds an edge
directly to its owner, every non-self edge connects a member to its
owner — each multi-member firm component is a star centered on its
owner — and therefore when an owner departs, every remove_edge target
inside change_ownership and in the tick loop (each member of the owner's
component other than the owner itself) is an existing edge, so the
exception branch of edge removal is unreachable. -/
theorem c10_star_invariant (Opt : OptFun) (powB : ℚ → ℚ → ℚ) (P : Params)
    (pick : List ℕ → ℕ) (S : Graph) (st : AgentMap × Graph)
    (hopt : opt_U_nonneg Opt)
    (hpick : ∀ l, l ≠ [] → pick l ∈ l)
    (h : Reach Opt powB P pick S st) :
    (∀ v, (st.1 ((st.1 v).firm)).firm = (st.1 v).firm) ∧
    (∀ v, (st.1 v).firm ≠ v → st.2.Adj v ((st.1 v).firm)) ∧
    (∀ x y, st.2.Adj x y → x ≠ y →
      (st.1 x).firm = y ∨ (st.1 y).firm = x) ∧
    (∀ i, (st.1 i).firm = i →
      ∀ j ∈ (st.2.componentOf i).erase i, st.2.Adj j i) := by
  have hs := reach_star hopt hpick h
  exact ⟨hs.1, hs.2.1, hs.2.2.1, fun i hi => star_remove_targets hs i hi⟩

/-- Witness for C10: the star invariant instantiated at a freshly
initialized population (constant draws, constant optimizer), projected to
the owner-idempotence of agent 0's firm pointer. -/
theorem c10_star_invariant_witness :
    (init_agent c1Opt powId
        (init_agent c1Opt powId 0 0 0 0 0 0).firm 0 0 0 0 0).firm =
      (init_agent c1Opt powId 0 0 0 0 0 0).firm :=
  (c10_star_invariant c1Opt powId c1Params (fun l => l.headD 0) emptyG
      (fun i => init_agent c1Opt powId i 0 0 0 0 0, ⟨[]⟩)
      (fun a b beta w theta Eo n => by norm_num [c1Opt])
      (fun l hl => by
        cases l with
        | nil => exact absurd rfl hl
        | cons x xs => exact List.mem_cons_self x xs)
      (Reach.init (fun _ => 0) (fun _ => 0) (fun _ => 0) (fun _ => 0)
        (fun _ => 0))).1 0

/-- Witness for C1 (amended) at the counterexample fixture. -/
theorem c1_flags_witness :
    flags_reset (resetFlags c1Agents 0) ∧
    action_flag_count ((decide_fn c1Opt c1Params c1Agents emptyG edge01 0).2.2 0) ≤ 1 ∧
    (((decide_fn c1Opt c1Params c1Agents emptyG edge01 0).2.2 0).borrow = true →
      ((decide_fn c1Opt c1Params c1Agents emptyG edge01 0).2.2 0).move = true ∨
        ((decide_fn c1Opt c1Params c1Agents emptyG edge01 0).2.2 0).startup = true) :=
  c1_flags c1Opt c1Params c1Agents emptyG edge01 0 0
    (by norm_num [flags_reset, c1Agents, baseAgent])

end EFM
